import Mathlib

/-!
Verification development for the `json-typedef-infer` repository: a shallow
embedding of the schema-inference engine (JSON Type Definition, RFC 8927)
together with proofs of the specified properties.

The repository's `src/lib.rs` and `src/main.rs` contain the driver
(`Inferrer`), the JS-boundary entry point (`generate_schema`) and the hint
pointer parser (`parse_json_pointer`); those are translated directly.  The
core modules `hints`, `inferred_number` and `inferred_schema` are declared in
`lib.rs` but their sources are not part of the repository snapshot; they are
modelled from the specification, as marked in the doc comments below.
-/

namespace JtdInfer

/-! ## Numeric lattice -/

/-- Modelled from the spec: the eight numeric kinds of module
`inferred_number` (absent from src/), §3 of the spec. -/
inductive NumType where
  | int8
  | uint8
  | int16
  | uint16
  | int32
  | uint32
  | float32
  | float64
deriving DecidableEq, Repr, Fintype

/-- Modelled from the spec: a JSON numeric literal as the core needs it.
An integral literal carries its exact value; a non-integral (fractional)
literal carries only whether it is representable in float32 without
precision loss, the one bit §3 of the spec consults (floating-point
arithmetic itself is out of the embedding's scope). -/
inductive JNum where
  | int (n : Int)
  | frac (fitsFloat32 : Bool)
deriving DecidableEq, Repr

namespace NumType

/-- Modelled from the spec: the widening relation of §3
(int8 ⊑ int16 ⊑ int32; uint8 ⊑ uint16 ⊑ uint32; uint8 ⊑ int16;
float32 ⊑ float64; any integer kind ⊑ float64), reflexive-transitively
closed. -/
def le : NumType → NumType → Bool
  | int8, int8 => true
  | int8, int16 => true
  | int8, int32 => true
  | int8, float64 => true
  | int16, int16 => true
  | int16, int32 => true
  | int16, float64 => true
  | int32, int32 => true
  | int32, float64 => true
  | uint8, uint8 => true
  | uint8, uint16 => true
  | uint8, uint32 => true
  | uint8, int16 => true
  | uint8, int32 => true
  | uint8, float64 => true
  | uint16, uint16 => true
  | uint16, uint32 => true
  | uint16, float64 => true
  | uint32, uint32 => true
  | uint32, float64 => true
  | float32, float32 => true
  | float32, float64 => true
  | float64, float64 => true
  | _, _ => false

/-- All eight numeric kinds. -/
def all : List NumType :=
  [int8, uint8, int16, uint16, int32, uint32, float32, float64]

/-- Modelled from the spec: which JSON numbers a numeric kind accepts
(RFC 8927 semantics): integer kinds accept exactly the integral literals in
their range; the floating kinds accept every number. -/
def accepts : NumType → JNum → Bool
  | int8, .int n => -128 ≤ n && n ≤ 127
  | uint8, .int n => 0 ≤ n && n ≤ 255
  | int16, .int n => -32768 ≤ n && n ≤ 32767
  | uint16, .int n => 0 ≤ n && n ≤ 65535
  | int32, .int n => -2147483648 ≤ n && n ≤ 2147483647
  | uint32, .int n => 0 ≤ n && n ≤ 4294967295
  | float32, _ => true
  | float64, _ => true
  | _, .frac _ => false

/-- Modelled from the spec: the smallest kind able to represent a literal
exactly, preferring unsigned kinds for non-negative integers, degrading to a
floating kind for non-integral or over-range values (§4.1). -/
def smallestFit : JNum → NumType
  | .int n =>
    if 0 ≤ n then
      if n ≤ 255 then uint8
      else if n ≤ 65535 then uint16
      else if n ≤ 4294967295 then uint32
      else float64
    else
      if -128 ≤ n then int8
      else if -32768 ≤ n then int16
      else if -2147483648 ≤ n then int32
      else float64
  | .frac fits32 => if fits32 then float32 else float64

/-- Modelled from the spec: `classify` of §4.1.  The caller-supplied default
kind is used whenever the literal's classification is ambiguous, i.e. the
literal is representable in the default kind; otherwise the smallest fitting
kind is chosen.  Applying one uniform rule at every literal keeps merge
order-independent (invariant (e) of §3). -/
def classify (default : NumType) (n : JNum) : NumType :=
  if default.accepts n then default else smallestFit n

/-- Modelled from the spec: `join` of §4.1 — the least upper bound of the §3
ordering, degrading to float64 when no tighter bound exists. -/
def join (a b : NumType) : NumType :=
  match all.find? (fun c =>
      a.le c && b.le c && all.all (fun d => !(a.le d && b.le d) || c.le d)) with
  | some c => c
  | none => float64

end NumType

/-! ## JSON values

The engine's input values (what `serde_json::Value` supplies in the Rust
sources), with object and array spines as dedicated inductive types so that
every traversal below is plainly structural. -/

mutual
inductive Json where
  | null
  | bool (b : Bool)
  | num (n : JNum)
  | str (s : String)
  | arr (xs : JsonL)
  | obj (ms : JsonO)
deriving Repr

inductive JsonL where
  | nil
  | cons (hd : Json) (tl : JsonL)
deriving Repr

inductive JsonO where
  | nil
  | cons (key : String) (val : Json) (tl : JsonO)
deriving Repr
end

namespace JsonO

/-- Does the object have a member named `k`? -/
def hasKey (k : String) : JsonO → Bool
  | .nil => false
  | .cons k' _ tl => k = k' || hasKey k tl

/-- The value of the first member named `k`, if any. -/
def find? (k : String) : JsonO → Option Json
  | .nil => none
  | .cons k' v tl => if k = k' then some v else find? k tl

/-- The string value of member `k`, if the object has such a member and its
value is a string (used for the discriminator tag). -/
def findStr? (k : String) : JsonO → Option String
  | ms =>
    match ms.find? k with
    | some (.str s) => some s
    | _ => none

end JsonO

/-! ## Sorted string lists (enum value sets, required-key sets) -/

/-- Insert a string into a (strictly) sorted list, keeping it sorted and
duplicate-free. -/
def insortStr (s : String) : List String → List String
  | [] => [s]
  | x :: xs =>
    if s < x then s :: x :: xs
    else if x < s then x :: insortStr s xs
    else x :: xs

/-- The keys of an object, sorted and deduplicated, omitting `skip`. -/
def sortedKeysExcept (skip : Option String) : JsonO → List String
  | .nil => []
  | .cons k _ tl =>
    if skip = some k then sortedKeysExcept skip tl
    else insortStr k (sortedKeysExcept skip tl)

/-! ## JSON Pointer parsing (`parse_json_pointer`, src/src/lib.rs:141-152)

The Rust function first replaces every occurrence of `~1` by `/`, then every
occurrence of `!0` by `~` (sic — the source uses `!0`, not RFC 6901's `~0`),
then splits the whole string on `/` and discards the first token.  The
replacement is modelled character-for-character: leftmost-first,
non-overlapping, exactly `str::replace`. -/

/-- One pass of `str::replace` for a two-character pattern, with fuel (the
fuel is the list length, so it is never exhausted). -/
def replace2Aux (p0 p1 : Char) (r : List Char) : Nat → List Char → List Char
  | 0, l => l
  | _ + 1, [] => []
  | fuel + 1, c0 :: rest =>
    match rest with
    | [] => [c0]
    | c1 :: rest' =>
      if c0 = p0 && c1 = p1 then r ++ replace2Aux p0 p1 r fuel rest'
      else c0 :: replace2Aux p0 p1 r fuel rest

/-- `str::replace` for a two-character pattern. -/
def replace2 (p0 p1 : Char) (r : List Char) (l : List Char) : List Char :=
  replace2Aux p0 p1 r l.length l

/-- `str::split('/')`: splits a character list on `/`, keeping empty
segments, as Rust's `split` does. -/
def splitSlash : List Char → List (List Char)
  | [] => [[]]
  | c :: rest =>
    if c = '/' then [] :: splitSlash rest
    else
      match splitSlash rest with
      | [] => [[c]]
      | g :: gs => (c :: g) :: gs

/-- `parse_json_pointer` from src/src/lib.rs:141-152 (the copy in
src/src/main.rs:67-78 is identical): empty string to the empty path;
otherwise replace `~1` by `/`, then `!0` by `~`, split on `/` and skip the
first token. -/
def parse_json_pointer (s : String) : List String :=
  if s = "" then []
  else
    ((splitSlash (replace2 '!' '0' ['~'] (replace2 '~' '1' ['/'] s.toList))).map
      (fun cs => String.mk cs)).drop 1

/-! ## Hints -/

/-- `HintSet` of the `hints` module: a set of paths.  The module's source is
not under src/; representation modelled from the spec (§2, §4.2) as the list
of path suffixes still relevant below the current position. -/
abbrev HintSet := List (List String)

namespace HintSet

/-- `HintSet::new` (as called from src/src/lib.rs:124-126). -/
def new (l : List (List String)) : HintSet := l

/-- Modelled from the spec: advance the set one level down into property
`k` — keep the tails of the paths whose head is `k`. -/
def sub (k : String) (hs : HintSet) : HintSet :=
  hs.filterMap fun p =>
    match p with
    | [] => none
    | k' :: rest => if k' = k then some rest else none

/-- Modelled from the spec: exact-path membership at the current position
(§4.2) — after advancing, the empty path is a member. -/
def isActive (hs : HintSet) : Bool := hs.contains ([] : List String)

/-- Modelled from the spec: the discriminator's tag property name for the
current position.  The spec's §4.2 and Open Question (2) leave the tag's
transport open given that only path sets cross the interface; the resolution
chosen here (and documented, as the spec instructs) pairs each
discriminator-hint path with its tag by storing the tag as the path's final
segment, so a position is discriminator-hinted when a hint path extends the
position's path by exactly one segment, and that segment is the tag. -/
def peekTag (hs : HintSet) : Option String :=
  hs.findSome? fun p =>
    match p with
    | [t] => some t
    | _ => none

end HintSet

/-- `Hints` of the `hints` module (constructed in src/src/lib.rs:122-127):
the default numeric kind and the three hint sets. -/
structure Hints where
  default_num_type : NumType
  enum_hints : HintSet
  values_hints : HintSet
  discriminator_hints : HintSet

/-- `Hints::new` as called at src/src/lib.rs:122. -/
def Hints.new (d : NumType) (e v disc : HintSet) : Hints := ⟨d, e, v, disc⟩

/-- Modelled from the spec: the hints one level down into property `k`. -/
def Hints.sub (h : Hints) (k : String) : Hints :=
  ⟨h.default_num_type, h.enum_hints.sub k, h.values_hints.sub k,
    h.discriminator_hints.sub k⟩

/-! ## Timestamp candidate check -/

/-- Is `c` an ASCII digit? -/
def isDigitCh (c : Char) : Bool := '0' ≤ c && c ≤ '9'

/-- Time-zone tail of an RFC 3339 timestamp: `Z`/`z` or `±hh:mm`. -/
def tzTail : List Char → Bool
  | ['Z'] => true
  | ['z'] => true
  | [sgn, a, b, ':', c, d] =>
    (sgn = '+' || sgn = '-') && isDigitCh a && isDigitCh b && isDigitCh c && isDigitCh d
  | _ => false

/-- Drop a leading run of ASCII digits. -/
def dropDigits : List Char → List Char
  | [] => []
  | c :: rest => if isDigitCh c then dropDigits rest else c :: rest

/-- After the seconds: optional `.` with at least one fractional digit, then
the time-zone tail. -/
def secondsTail : List Char → Bool
  | '.' :: rest =>
    (match rest with
     | c :: _ => isDigitCh c
     | [] => false) && tzTail (dropDigits rest)
  | rest => tzTail rest

/-- Modelled from the spec: the RFC 3339 timestamp-candidate test of §3 (the
check lives in the absent `inferred_schema` module).  The structural shape
`YYYY-MM-DDThh:mm:ss[.f*](Z|±hh:mm)` is checked; calendar range checks are
elided.  The same predicate is used by the merge algorithm and by the
validator below, which is all the spec's soundness property relies on. -/
def isTimestamp (s : String) : Bool :=
  match s.toList with
  | y1 :: y2 :: y3 :: y4 :: '-' :: mo1 :: mo2 :: '-' :: d1 :: d2 :: t ::
      h1 :: h2 :: ':' :: mi1 :: mi2 :: ':' :: s1 :: s2 :: rest =>
    [y1, y2, y3, y4, mo1, mo2, d1, d2, h1, h2, mi1, mi2, s1, s2].all isDigitCh &&
    (t = 'T' || t = 't') && secondsTail rest
  | _ => false

/-! ## The inferred-schema tree -/

mutual
/-- Modelled from the spec: `InferredSchema` of the absent `inferred_schema`
module, §3 of the spec — a nullable flag paired with one of the variants;
`IMap` is a key-sorted association list of child nodes (the mapping of a
`properties` or `discriminator` node). -/
inductive InferredSchema where
  | unknown (nullable : Bool)
  | boolean (nullable : Bool)
  | number (nullable : Bool) (k : NumType)
  | string (nullable : Bool)
  | timestamp (nullable : Bool)
  | enum (nullable : Bool) (vals : List String)
  | elements (nullable : Bool) (child : InferredSchema)
  | properties (nullable : Bool) (m : IMap) (required : List String)
  | values (nullable : Bool) (child : InferredSchema)
  | discriminator (nullable : Bool) (tag : String) (m : IMap)
  | any (nullable : Bool)
deriving Repr

inductive IMap where
  | nil
  | cons (key : String) (val : InferredSchema) (tl : IMap)
deriving Repr
end

namespace IMap

/-- The child at key `k`, if present. -/
def find? (k : String) : IMap → Option InferredSchema
  | .nil => none
  | .cons k' c tl => if k = k' then some c else find? k tl

/-- Insert-or-replace at key `k`, keeping the map key-sorted. -/
def insertAt (k : String) (c : InferredSchema) : IMap → IMap
  | .nil => .cons k c .nil
  | .cons k' c' tl =>
    if k < k' then .cons k c (.cons k' c' tl)
    else if k' < k then .cons k' c' (insertAt k c tl)
    else .cons k c tl

/-- The keys, in map order. -/
def keys : IMap → List String
  | .nil => []
  | .cons k _ tl => k :: keys tl

end IMap

/-- The nullable flag of a node. -/
def InferredSchema.nullableOf : InferredSchema → Bool
  | .unknown nb => nb
  | .boolean nb => nb
  | .number nb _ => nb
  | .string nb => nb
  | .timestamp nb => nb
  | .enum nb _ => nb
  | .elements nb _ => nb
  | .properties nb _ _ => nb
  | .values nb _ => nb
  | .discriminator nb _ _ => nb
  | .any nb => nb

/-- Set the nullable flag (the variant is unchanged). -/
def InferredSchema.setNullable : InferredSchema → InferredSchema
  | .unknown _ => .unknown true
  | .boolean _ => .boolean true
  | .number _ k => .number true k
  | .string _ => .string true
  | .timestamp _ => .timestamp true
  | .enum _ vals => .enum true vals
  | .elements _ c => .elements true c
  | .properties _ m req => .properties true m req
  | .values _ c => .values true c
  | .discriminator _ tag m => .discriminator true tag m
  | .any _ => .any true

/-- The fresh, neutral node: `Unknown`, not nullable. -/
def unknownS : InferredSchema := .unknown false

/-! ## The merge algorithm

Modelled from the spec: `InferredSchema::infer` of the absent
`inferred_schema` module, §4.3 of the spec.  Hints are carried in derivative
style: descending into property `k` advances every hint path by `k`, so
exact-path matching at the current position is membership of the empty path.
Array elements and the shared child of a `values` node keep their parent's
hints (all elements of an array share one path, §3; all members of a
free-form map share one child). -/

mutual
/-- Modelled from the spec: merge one example value into the tree (§4.3). -/
def InferredSchema.infer (t : InferredSchema) (v : Json) (h : Hints) : InferredSchema :=
  match t, v with
  | t, .null => t.setNullable
  | .unknown nb, .bool _ => .boolean nb
  | .unknown nb, .num n => .number nb (NumType.classify h.default_num_type n)
  | .unknown nb, .str s =>
    if h.enum_hints.isActive then .enum nb [s]
    else if isTimestamp s then .timestamp nb
    else .string nb
  | .unknown nb, .arr xs => .elements nb (inferElems unknownS xs h)
  | .unknown nb, .obj ms =>
    (match h.discriminator_hints.peekTag with
     | some tag =>
       (match ms.findStr? tag with
        | some d =>
          .discriminator nb tag (IMap.nil.insertAt d
            (.properties false (inferMembers (some tag) .nil ms h)
              (sortedKeysExcept (some tag) ms)))
        | none => .any nb)
     | none =>
       if h.values_hints.isActive then .values nb (inferValuesFold unknownS ms h)
       else .properties nb (inferMembers none .nil ms h) (sortedKeysExcept none ms))
  | .boolean nb, .bool _ => .boolean nb
  | .number nb k, .num n => .number nb (k.join (NumType.classify h.default_num_type n))
  | .string nb, .str _ => .string nb
  | .timestamp nb, .str s => if isTimestamp s then .timestamp nb else .string nb
  | .enum nb vals, .str s => .enum nb (insortStr s vals)
  | .elements nb c, .arr xs => .elements nb (inferElems c xs h)
  | .properties nb m req, .obj ms =>
    .properties nb (inferMembers none m ms h) (req.filter (fun k => ms.hasKey k))
  | .values nb c, .obj ms => .values nb (inferValuesFold c ms h)
  | .discriminator nb tag m, .obj ms =>
    (match ms.findStr? tag with
     | some d =>
       .discriminator nb tag (m.insertAt d
         (match (m.find? d).getD
             (.properties false .nil (sortedKeysExcept (some tag) ms)) with
          | .properties nb2 m2 req2 =>
            .properties nb2 (inferMembers (some tag) m2 ms h)
              (req2.filter (fun k => ms.hasKey k))
          | sub => .any sub.nullableOf))
     | none => .any nb)
  | .any nb, _ => .any nb
  | t, _ => .any t.nullableOf

def inferElems (c : InferredSchema) (xs : JsonL) (h : Hints) : InferredSchema :=
  match xs with
  | .nil => c
  | .cons x tl => inferElems (c.infer x h) tl h

def inferMembers (skip : Option String) (m : IMap) (ms : JsonO) (h : Hints) : IMap :=
  match ms with
  | .nil => m
  | .cons k val tl =>
    if skip = some k then inferMembers skip m tl h
    else
      inferMembers skip
        (m.insertAt k (((m.find? k).getD unknownS).infer val (h.sub k))) tl h

def inferValuesFold (c : InferredSchema) (ms : JsonO) (h : Hints) : InferredSchema :=
  match ms with
  | .nil => c
  | .cons _ val tl => inferValuesFold (c.infer val h) tl h
end

/-! ## JTD schemas (the emission target) -/

/-- A `type` form's type name (RFC 8927 §2.2.3). -/
inductive TypeForm where
  | boolean
  | string
  | timestamp
  | numeric (k : NumType)
deriving DecidableEq, Repr

mutual
/-- A JTD schema document per §6 of the spec: exactly one of the RFC 8927
forms per node, plus the nullable flag; `SchemaMap` is an association list
of sub-schemas (`properties`, `optionalProperties`, discriminator
`mapping`). -/
inductive Schema where
  | empty (nullable : Bool)
  | tpe (nullable : Bool) (t : TypeForm)
  | enum (nullable : Bool) (vals : List String)
  | elements (nullable : Bool) (child : Schema)
  | properties (nullable : Bool) (required : SchemaMap) (optional : SchemaMap)
  | values (nullable : Bool) (child : Schema)
  | discriminator (nullable : Bool) (tag : String) (mapping : SchemaMap)
deriving Repr

inductive SchemaMap where
  | nil
  | cons (key : String) (val : Schema) (tl : SchemaMap)
deriving Repr
end

/-- The nullable flag of an emitted schema node. -/
def Schema.nullableB : Schema → Bool
  | .empty nb => nb
  | .tpe nb _ => nb
  | .enum nb _ => nb
  | .elements nb _ => nb
  | .properties nb _ _ => nb
  | .values nb _ => nb
  | .discriminator nb _ _ => nb

/-! ## Emission -/

mutual
/-- Modelled from the spec: `InferredSchema::into_schema` of the absent
`inferred_schema` module, §4.4 of the spec — a pure structural fold
translating each variant to its JTD form, attaching the nullable flag
uniformly; a `properties` node's map is split into required and optional
groups by the required-key set. -/
def InferredSchema.into_schema : InferredSchema → Schema
  | .unknown nb => .empty nb
  | .boolean nb => .tpe nb .boolean
  | .number nb k => .tpe nb (.numeric k)
  | .string nb => .tpe nb .string
  | .timestamp nb => .tpe nb .timestamp
  | .enum nb vals => .enum nb vals
  | .elements nb c => .elements nb c.into_schema
  | .properties nb m req => .properties nb (emitReq m req) (emitOpt m req)
  | .values nb c => .values nb c.into_schema
  | .discriminator nb tag m => .discriminator nb tag (emitMap m)
  | .any nb => .empty nb

/-- The required group: the map's entries whose key is in the required set. -/
def emitReq : IMap → List String → SchemaMap
  | .nil, _ => .nil
  | .cons k c tl, req =>
    if k ∈ req then .cons k c.into_schema (emitReq tl req) else emitReq tl req

/-- The optional group: the map's entries whose key is not required. -/
def emitOpt : IMap → List String → SchemaMap
  | .nil, _ => .nil
  | .cons k c tl, req =>
    if k ∈ req then emitOpt tl req else .cons k c.into_schema (emitOpt tl req)

/-- Emit every entry of a discriminator mapping. -/
def emitMap : IMap → SchemaMap
  | .nil => .nil
  | .cons k c tl => .cons k c.into_schema (emitMap tl)
end

/-! ## RFC 8927 validation

The acceptance relation the spec's soundness property (§8) quantifies over:
does a schema accept a JSON value?  Stated from RFC 8927's semantics: the
empty form accepts everything; a nullable schema accepts `null`; a
`properties` form rejects members not named by it; a discriminator form
exempts the tag property inside the selected variant. -/

/-- Look up a key in an emitted-schema map. -/
def SchemaMap.find? (k : String) : SchemaMap → Option Schema
  | .nil => none
  | .cons k' s tl => if k = k' then some s else find? k tl

theorem SchemaMap.sizeOf_pos (m : SchemaMap) : 0 < sizeOf m := by
  cases m <;> simp_arith

mutual
/-- RFC 8927 acceptance of a JSON value by an emitted schema. -/
def accepts (s : Schema) (v : Json) : Bool :=
  match s, v with
  | .empty _, _ => true
  | s, .null => s.nullableB
  | .tpe _ .boolean, .bool _ => true
  | .tpe _ .string, .str _ => true
  | .tpe _ .timestamp, .str str => isTimestamp str
  | .tpe _ (.numeric k), .num n => k.accepts n
  | .enum _ vals, .str str => str ∈ vals
  | .elements _ c, .arr xs => acceptsAll c xs
  | .properties _ rm om, .obj ms =>
    acceptsReq rm none ms && acceptsMembers rm om none ms
  | .values _ c, .obj ms => acceptsVals c ms
  | .discriminator _ tag mp, .obj ms =>
    (match ms.findStr? tag with
     | some d => acceptsVariantFind mp d tag ms
     | none => false)
  | _, _ => false
termination_by (sizeOf s, sizeOf v)

/-- Every element of the array is accepted by the element schema. -/
def acceptsAll (c : Schema) (xs : JsonL) : Bool :=
  match xs with
  | .nil => true
  | .cons x tl => accepts c x && acceptsAll c tl
termination_by (sizeOf c, sizeOf xs)

/-- Every required entry (the exempted discriminator tag aside) is present
in the object and accepted. -/
def acceptsReq (rm : SchemaMap) (exempt : Option String) (ms : JsonO) : Bool :=
  match rm with
  | .nil => true
  | .cons k sch tl =>
    (if exempt = some k then true
     else
       match ms.find? k with
       | some x => accepts sch x
       | none => false) && acceptsReq tl exempt ms
termination_by (sizeOf rm, sizeOf ms)

/-- Does the map bind `k`, and if so does its schema accept `x`? -/
def acceptsIn (m : SchemaMap) (k : String) (x : Json) : Option Bool :=
  match m with
  | .nil => none
  | .cons k' sch tl => if k = k' then some (accepts sch x) else acceptsIn tl k x
termination_by (sizeOf m, sizeOf x)

/-- Every member of the object (except the exempted tag) is named by the
required or optional group and accepted by its schema. -/
def acceptsMembers (rm om : SchemaMap) (exempt : Option String) (ms : JsonO) : Bool :=
  match ms with
  | .nil => true
  | .cons k x tl =>
    (if exempt = some k then true
     else
       match acceptsIn rm k x with
       | some b => b
       | none =>
         match acceptsIn om k x with
         | some b => b
         | none => false) && acceptsMembers rm om exempt tl
termination_by (sizeOf rm + sizeOf om, sizeOf ms)
decreasing_by
  all_goals
    (have hrm := SchemaMap.sizeOf_pos rm
     have hom := SchemaMap.sizeOf_pos om
     simp_wf
     first
       | (apply Prod.Lex.left; omega)
       | (apply Prod.Lex.right; omega))

/-- Every member value of the object is accepted by the values schema. -/
def acceptsVals (c : Schema) (ms : JsonO) : Bool :=
  match ms with
  | .nil => true
  | .cons _ x tl => accepts c x && acceptsVals c tl
termination_by (sizeOf c, sizeOf ms)

/-- Find the discriminant's entry in the mapping and check the object
against it, exempting the tag (RFC 8927 §3.3.8). -/
def acceptsVariantFind (mp : SchemaMap) (d tag : String) (ms : JsonO) : Bool :=
  match mp with
  | .nil => false
  | .cons k sch tl =>
    if d = k then
      match sch with
      | .properties _ rm om =>
        acceptsReq rm (some tag) ms && acceptsMembers rm om (some tag) ms
      | .empty _ => true
      | _ => false
    else acceptsVariantFind tl d tag ms
termination_by (sizeOf mp, sizeOf ms)
end

/-! ## The driver (`Inferrer`, src/src/lib.rs:155-192) -/

/-- `Inferrer` (src/src/lib.rs:157-160): the root inferred-schema node and
the hint configuration. -/
structure Inferrer where
  inference : InferredSchema
  hints : Hints

/-- `Inferrer::new` (src/src/lib.rs:167-172): starts from `Unknown`. -/
def Inferrer.new (hints : Hints) : Inferrer :=
  { inference := .unknown false, hints := hints }

/-- `Inferrer::infer` (src/src/lib.rs:178-183): fold one example in. -/
def Inferrer.infer (i : Inferrer) (v : Json) : Inferrer :=
  { inference := i.inference.infer v i.hints, hints := i.hints }

/-- `Inferrer::into_schema` (src/src/lib.rs:189-191): emit the schema. -/
def Inferrer.into_schema (i : Inferrer) : Schema :=
  i.inference.into_schema

/-! ## `generate_schema` (src/src/lib.rs:83-138)

The JS-boundary glue: the raw input stream is modelled as the external
streaming decoder's output, a list of decode results (§6 of the spec treats
the decoder as an external collaborator); serialization of the final schema
to text is likewise outside the model, so the emitted `Schema` itself is
returned. -/

/-- `SchemaParams` (src/src/lib.rs:72-79). -/
structure SchemaParams where
  input : List (Except String Json)
  enumHints : List String
  valuesHints : List String
  discriminatorHints : List String
  defaultNumberType : String

/-- The `match params.defaultNumberType.as_str()` at src/src/lib.rs:109-119,
with `none` for the error arm. -/
def defaultNumTypeOf : String → Option NumType
  | "int8" => some .int8
  | "uint8" => some .uint8
  | "int16" => some .int16
  | "uint16" => some .uint16
  | "int32" => some .int32
  | "uint32" => some .uint32
  | "float32" => some .float32
  | "float64" => some .float64
  | _ => none

/-- `generate_schema` (src/src/lib.rs:83-138): parse the hint pointers,
resolve the default number type (returning the error before any example is
consumed when the name is unrecognized), then fold every decoded value into
a fresh `Inferrer`, propagating the first decode error, and emit. -/
def generate_schema (params : SchemaParams) : Except String Schema :=
  let enum_hints := params.enumHints.map parse_json_pointer
  let values_hints := params.valuesHints.map parse_json_pointer
  let discriminator_hints := params.discriminatorHints.map parse_json_pointer
  match defaultNumTypeOf params.defaultNumberType with
  | none => .error "Invalid default number type"
  | some default_num_type =>
    let hints := Hints.new default_num_type (HintSet.new enum_hints)
      (HintSet.new values_hints) (HintSet.new discriminator_hints)
    (params.input.foldlM (fun inf ev => Except.map inf.infer ev)
        (Inferrer.new hints)).map Inferrer.into_schema

/-! ## The tree-level acceptance relation

`fits t v` says the inferred tree `t` structurally covers the value `v`; it
is the induction invariant behind the spec's soundness property: it is
established by merge for the value just folded in, preserved by later
merges, and implies acceptance by the emitted schema. -/

mutual
/-- Tree-level coverage of a value by an inferred-schema node. -/
def fits (t : InferredSchema) (v : Json) : Bool :=
  match t, v with
  | t, .null => t.nullableOf
  | .unknown _, _ => false
  | .boolean _, .bool _ => true
  | .number _ k, .num n => k.accepts n
  | .string _, .str _ => true
  | .timestamp _, .str s => isTimestamp s
  | .enum _ vals, .str s => s ∈ vals
  | .elements _ c, .arr xs => fitsAll c xs
  | .properties _ m req, .obj ms => req.all (fun k => ms.hasKey k) && fitsMembers m none ms
  | .values _ c, .obj ms => fitsVals c ms
  | .discriminator _ tag m, .obj ms =>
    (match ms.findStr? tag with
     | some d => fitsVariantFind m d tag ms
     | none => false)
  | .any _, _ => true
  | _, _ => false
termination_by (sizeOf t, sizeOf v)

/-- Every array element is covered by the shared child. -/
def fitsAll (c : InferredSchema) (xs : JsonL) : Bool :=
  match xs with
  | .nil => true
  | .cons x tl => fits c x && fitsAll c tl
termination_by (sizeOf c, sizeOf xs)

/-- Does the map bind `k`, and is `x` covered by its child? -/
def fitsIn (m : IMap) (k : String) (x : Json) : Option Bool :=
  match m with
  | .nil => none
  | .cons k' c tl => if k = k' then some (fits c x) else fitsIn tl k x
termination_by (sizeOf m, sizeOf x)

/-- Every member (except the exempted tag) is bound in the map and covered. -/
def fitsMembers (m : IMap) (exempt : Option String) (ms : JsonO) : Bool :=
  match ms with
  | .nil => true
  | .cons k x tl =>
    (if exempt = some k then true
     else
       match fitsIn m k x with
       | some b => b
       | none => false) && fitsMembers m exempt tl
termination_by (sizeOf m, sizeOf ms)

/-- Every member value is covered by the shared child. -/
def fitsVals (c : InferredSchema) (ms : JsonO) : Bool :=
  match ms with
  | .nil => true
  | .cons _ x tl => fits c x && fitsVals c tl
termination_by (sizeOf c, sizeOf ms)

/-- The discriminant's variant covers the object, tag exempted. -/
def fitsVariantFind (m : IMap) (d tag : String) (ms : JsonO) : Bool :=
  match m with
  | .nil => false
  | .cons k sub tl =>
    if d = k then
      match sub with
      | .properties _ m2 req2 =>
        req2.all (fun k2 => ms.hasKey k2) && fitsMembers m2 (some tag) ms
      | .any _ => true
      | _ => false
    else fitsVariantFind tl d tag ms
termination_by (sizeOf m, sizeOf ms)
end

/-! ## Auxiliary observations used by the claims -/

/-- The hint configuration of the reference scenarios: no hints, default
numeric kind uint8 (the module doctest at src/src/lib.rs:22-27). -/
def hintsUint8 : Hints :=
  Hints.new .uint8 (HintSet.new []) (HintSet.new []) (HintSet.new [])

/-- The required-key set of a `properties` node (empty for other variants). -/
def requiredOf : InferredSchema → List String
  | .properties _ _ req => req
  | _ => []

/-- The keys bound by an emitted-schema map. -/
def SchemaMap.keys : SchemaMap → List String
  | .nil => []
  | .cons k _ tl => k :: keys tl

/-- The keys of the emitted `properties` group (the required one). -/
def Schema.requiredKeys : Schema → List String
  | .properties _ rm _ => rm.keys
  | _ => []

/-- The §4.3 conflict cases: a non-null value whose outer shape is
incompatible with the current variant (which is neither `Unknown` nor
`Any`). -/
def conflict (t : InferredSchema) (v : Json) : Bool :=
  match t, v with
  | _, .null => false
  | .unknown _, _ => false
  | .any _, _ => false
  | .boolean _, .bool _ => false
  | .number _ _, .num _ => false
  | .string _, .str _ => false
  | .timestamp _, .str _ => false
  | .enum _ _, .str _ => false
  | .elements _ _, .arr _ => false
  | .properties _ _ _, .obj _ => false
  | .values _ _, .obj _ => false
  | .discriminator _ _ _, .obj _ => false
  | _, _ => true

/-! ## Claim C3: the reference scenario -/

/-- C3: with no hints and default numeric kind uint8, folding
`{"foo": true, "bar": "xxx"}` and then `{"foo": false, "bar": null,
"baz": 5}` emits exactly the schema with required properties `foo` (type
boolean) and `bar` (type string, nullable), and optional property `baz`
(type uint8). -/
theorem c3_reference_scenario :
    ((Inferrer.new hintsUint8)
        |>.infer (Json.obj (.cons "foo" (.bool true) (.cons "bar" (.str "xxx") .nil)))
        |>.infer (Json.obj (.cons "foo" (.bool false)
            (.cons "bar" .null (.cons "baz" (.num (.int 5)) .nil))))
        |>.into_schema)
      = Schema.properties false
          (.cons "bar" (.tpe true .string) (.cons "foo" (.tpe false .boolean) .nil))
          (.cons "baz" (.tpe false (.numeric .uint8)) .nil) := by
  simp [Inferrer.new, Inferrer.infer, Inferrer.into_schema, InferredSchema.infer,
    inferMembers, inferElems, inferValuesFold, hintsUint8, Hints.new, HintSet.new,
    HintSet.isActive, HintSet.peekTag, HintSet.sub, Hints.sub, IMap.find?, IMap.insertAt,
    unknownS, isTimestamp, sortedKeysExcept, insortStr, JsonO.findStr?, JsonO.find?,
    JsonO.hasKey, NumType.classify, NumType.accepts, InferredSchema.setNullable,
    InferredSchema.into_schema, emitReq, emitOpt, emitMap, List.filter]

/-! ## Claim C9: the discriminator hint -/

/-- C9: with the discriminator hint naming the root position with tag
property `kind`, folding `{"kind":"a","x":1}` then `{"kind":"b","y":true}`
emits a discriminator schema on `kind` whose mapping sends `a` to the object
schema `{x: uint8}` and `b` to the object schema `{y: boolean}`, the tag
property excluded from each variant's sub-schema. -/
theorem c9_discriminator_hint :
    ((Inferrer.new (Hints.new .uint8 (HintSet.new []) (HintSet.new [])
          (HintSet.new [["kind"]])))
        |>.infer (Json.obj (.cons "kind" (.str "a") (.cons "x" (.num (.int 1)) .nil)))
        |>.infer (Json.obj (.cons "kind" (.str "b") (.cons "y" (.bool true) .nil)))
        |>.into_schema)
      = Schema.discriminator false "kind"
          (.cons "a"
            (.properties false (.cons "x" (.tpe false (.numeric .uint8)) .nil) .nil)
            (.cons "b"
              (.properties false (.cons "y" (.tpe false .boolean) .nil) .nil)
              .nil)) := by
  simp [Inferrer.new, Inferrer.infer, Inferrer.into_schema, InferredSchema.infer,
    inferMembers, inferElems, inferValuesFold, Hints.new, HintSet.new,
    HintSet.isActive, HintSet.peekTag, HintSet.sub, Hints.sub, IMap.find?, IMap.insertAt,
    unknownS, isTimestamp, sortedKeysExcept, insortStr, JsonO.findStr?, JsonO.find?,
    JsonO.hasKey, NumType.classify, NumType.accepts, InferredSchema.setNullable,
    InferredSchema.into_schema, emitReq, emitOpt, emitMap, List.filter,
    InferredSchema.nullableOf]

/-! ## Claim C6: numeric widening -/

/-- C6: with default numeric kind uint8, folding 1, then 2, then 300 at one
position yields numeric kind uint16 (not uint8); folding 1 then -1 yields
the signed kind int16; and in general `join` returns the least upper bound
of the two kinds in the §3 widening order. -/
theorem c6_numeric_widening :
    (((Inferrer.new hintsUint8).infer (.num (.int 1)) |>.infer (.num (.int 2))
        |>.infer (.num (.int 300))).inference = .number false .uint16)
    ∧ (((Inferrer.new hintsUint8).infer (.num (.int 1))
        |>.infer (.num (.int (-1)))).inference = .number false .int16)
    ∧ (∀ a b : NumType, (a.le (a.join b) = true ∧ b.le (a.join b) = true)
        ∧ ∀ c : NumType, a.le c = true → b.le c = true → (a.join b).le c = true) := by
  refine ⟨?_, ?_, by decide⟩
  · simp [Inferrer.new, Inferrer.infer, InferredSchema.infer, hintsUint8, Hints.new,
      HintSet.new, NumType.classify, NumType.accepts, NumType.smallestFit, NumType.join,
      NumType.le, NumType.all, List.find?, List.all]
  · simp [Inferrer.new, Inferrer.infer, InferredSchema.infer, hintsUint8, Hints.new,
      HintSet.new, NumType.classify, NumType.accepts, NumType.smallestFit, NumType.join,
      NumType.le, NumType.all, List.find?, List.all]

/-- Witness for C6: the general least-upper-bound clause applied to the
concrete kinds uint8 and int8, whose join is int16. -/
theorem c6_numeric_widening_witness :
    NumType.le .uint8 .int16 = true ∧ NumType.le .int8 .int16 = true ∧
      NumType.le (NumType.join .uint8 .int8) .int16 = true :=
  ⟨by decide, by decide,
    (c6_numeric_widening.2.2 .uint8 .int8).2 .int16 (by decide) (by decide)⟩

/-! ## Claim C4: the pointer parser versus RFC 6901 -/

/-- C4: the source's `parse_json_pointer` does not unescape RFC 6901's `~0`
(it replaces the non-standard token `!0` instead, before splitting): on the
pointer `/~0` it returns `["~0"]` where RFC 6901 token-level unescaping
yields `["~"]`, and on `/a~1b` it returns two segments `["a", "b"]` where
RFC 6901 yields the single segment `["a/b"]`. -/
theorem c4_pointer_escape_divergence :
    parse_json_pointer "/~0" = ["~0"] ∧ parse_json_pointer "/a~1b" = ["a", "b"] := by
  exact ⟨by decide, by decide⟩

/-! ## Claim C10: the pointer parser's actual behavior -/

/-- C10: for every non-empty input, `parse_json_pointer` applies the
whole-string replacements `~1` to `/` then `!0` to `~` before splitting on
`/`, and unconditionally discards the first token; hence an input without a
leading slash loses its first segment, and a segment containing `~1` is
split in two. -/
theorem c10_pointer_behavior :
    (∀ s : String, s ≠ "" →
      parse_json_pointer s =
        ((splitSlash (replace2 '!' '0' ['~'] (replace2 '~' '1' ['/'] s.toList))).map
          (fun cs => String.mk cs)).drop 1)
    ∧ parse_json_pointer "a/b" = ["b"]
    ∧ parse_json_pointer "/a~1b" = ["a", "b"]
    ∧ parse_json_pointer "/x!0y" = ["x~y"] := by
  refine ⟨fun s hs => ?_, by decide, by decide, by decide⟩
  simp [parse_json_pointer, hs]

/-- Witness for C10: the pipeline clause applied at the concrete input
`a/b`, which indeed loses its first segment. -/
theorem c10_pointer_behavior_witness :
    parse_json_pointer "a/b" =
      ((splitSlash (replace2 '!' '0' ['~']
          (replace2 '~' '1' ['/'] ("a/b" : String).toList))).map
        (fun cs => String.mk cs)).drop 1 :=
  c10_pointer_behavior.1 "a/b" (by decide)

/-! ## Claim C8: configuration-time failure -/

/-- C8: when the supplied default-number-type name is not one of the eight
NumType names, `generate_schema` returns the configuration error — whatever
the input stream and hint strings contain, so no example is processed and no
schema is produced. -/
theorem c8_config_error :
    ∀ params : SchemaParams,
      params.defaultNumberType ∉
        ["int8", "uint8", "int16", "uint16", "int32", "uint32", "float32", "float64"] →
      generate_schema params = .error "Invalid default number type" := by
  intro p h
  have hnone : defaultNumTypeOf p.defaultNumberType = none := by
    unfold defaultNumTypeOf
    split <;> simp_all
  simp [generate_schema, hnone]

/-- Witness for C8: the unrecognized name `int64` aborts with the
configuration error even with a pending decodable example. -/
theorem c8_config_error_witness :
    generate_schema ⟨[.ok (.bool true)], [], [], [], "int64"⟩
      = .error "Invalid default number type" :=
  c8_config_error ⟨[.ok (.bool true)], [], [], [], "int64"⟩ (by decide)

/-! ## Claim C5: totality and degradation to Any -/

/-- C5: the merge operation is a total function of the inferred tree, the
value and the hints (it is a Lean `def`, defined for every input), and on
every §4.3 shape conflict it degrades to the `Any` variant, preserving the
nullable flag, rather than failing; emission `into_schema` is likewise a
total function. -/
theorem c5_conflict_degrades_to_any :
    ∀ (t : InferredSchema) (v : Json) (h : Hints),
      conflict t v = true →
      t.infer v h = .any t.nullableOf ∧
        (t.infer v h).into_schema = .empty t.nullableOf := by
  intro t v h hc
  have : t.infer v h = .any t.nullableOf := by
    cases t <;> cases v <;>
      simp_all [conflict, InferredSchema.infer, InferredSchema.nullableOf]
  exact ⟨this, by rw [this]; rfl⟩

/-- Witness for C5: a boolean node meeting a number degrades to `Any`. -/
theorem c5_conflict_degrades_to_any_witness :
    InferredSchema.infer (.boolean false) (.num (.int 0)) hintsUint8 = .any false ∧
      (InferredSchema.infer (.boolean false) (.num (.int 0)) hintsUint8).into_schema
        = .empty false :=
  c5_conflict_degrades_to_any (.boolean false) (.num (.int 0)) hintsUint8 (by decide)

/-! ## Claim C7: optionality demotion is monotone -/

/-- One merge into a `properties` node can only shrink the required set. -/
theorem requiredOf_infer_props (nb : Bool) (m : IMap) (req : List String)
    (v : Json) (h : Hints) :
    requiredOf ((InferredSchema.properties nb m req).infer v h) ⊆ req := by
  cases v with
  | null =>
    simp [InferredSchema.infer, InferredSchema.setNullable, requiredOf]
  | bool b => simp [InferredSchema.infer, requiredOf]
  | num n => simp [InferredSchema.infer, requiredOf]
  | str s => simp [InferredSchema.infer, requiredOf]
  | arr xs => simp [InferredSchema.infer, requiredOf]
  | obj ms =>
    simp only [InferredSchema.infer, requiredOf]
    exact fun a ha => (List.mem_filter.mp ha).1

/-- Once a key is outside the required set of a `properties` node (or the
node has degraded to `Any`), one more merge keeps it outside. -/
theorem key_stays_unrequired (key : String) (t : InferredSchema) (v : Json)
    (h : Hints)
    (ht : (∃ nb m req, t = .properties nb m req ∧ key ∉ req) ∨
      (∃ nb, t = .any nb)) :
    (∃ nb m req, t.infer v h = .properties nb m req ∧ key ∉ req) ∨
      (∃ nb, t.infer v h = .any nb) := by
  rcases ht with ⟨nb, m, req, rfl, hk⟩ | ⟨nb, rfl⟩
  · cases v with
    | null =>
      exact .inl ⟨true, m, req,
        by simp [InferredSchema.infer, InferredSchema.setNullable], hk⟩
    | bool b =>
      exact .inr ⟨nb, by simp [InferredSchema.infer, InferredSchema.nullableOf]⟩
    | num n =>
      exact .inr ⟨nb, by simp [InferredSchema.infer, InferredSchema.nullableOf]⟩
    | str s =>
      exact .inr ⟨nb, by simp [InferredSchema.infer, InferredSchema.nullableOf]⟩
    | arr xs =>
      exact .inr ⟨nb, by simp [InferredSchema.infer, InferredSchema.nullableOf]⟩
    | obj ms =>
      refine .inl ⟨nb, inferMembers none m ms h, req.filter (fun k => ms.hasKey k),
        by simp [InferredSchema.infer], fun hmem => hk ?_⟩
      exact (List.mem_filter.mp hmem).1
  · cases v with
    | null =>
      exact .inr ⟨true, by simp [InferredSchema.infer, InferredSchema.setNullable]⟩
    | bool b => exact .inr ⟨nb, by simp [InferredSchema.infer]⟩
    | num n => exact .inr ⟨nb, by simp [InferredSchema.infer]⟩
    | str s => exact .inr ⟨nb, by simp [InferredSchema.infer]⟩
    | arr xs => exact .inr ⟨nb, by simp [InferredSchema.infer]⟩
    | obj ms => exact .inr ⟨nb, by simp [InferredSchema.infer]⟩

/-- Folding any further examples keeps a demoted key out of the required
set. -/
theorem key_stays_unrequired_fold (key : String) (h : Hints) :
    ∀ (rest : List Json) (t : InferredSchema),
      ((∃ nb m req, t = .properties nb m req ∧ key ∉ req) ∨
        (∃ nb, t = .any nb)) →
      key ∉ requiredOf (rest.foldl (fun s x => s.infer x h) t) := by
  intro rest
  induction rest with
  | nil =>
    rintro t (⟨nb, m, req, rfl, hk⟩ | ⟨nb, rfl⟩) <;> simp [requiredOf]
    exact hk
  | cons v vs ih =>
    intro t ht
    exact ih _ (key_stays_unrequired key t v h ht)

/-- The keys of the emitted required group come from the required set. -/
theorem emitReq_keys_sub (key : String) :
    ∀ (m : IMap) (req : List String), key ∈ (emitReq m req).keys → key ∈ req
  | .nil, req, hmem => by simp [emitReq, SchemaMap.keys] at hmem
  | .cons k c tl, req, hmem => by
    by_cases hk : k ∈ req
    · simp only [emitReq, hk, if_true, SchemaMap.keys, List.mem_cons] at hmem
      rcases hmem with rfl | hmem
      · exact hk
      · exact emitReq_keys_sub key tl req hmem
    · simp only [emitReq, hk, if_false] at hmem
      exact emitReq_keys_sub key tl req hmem

/-- A key in the emitted schema's required group is in the tree's required
set. -/
theorem requiredKeys_into_schema (key : String) (t : InferredSchema) :
    key ∈ t.into_schema.requiredKeys → key ∈ requiredOf t := by
  cases t with
  | properties nb m req =>
    simp only [InferredSchema.into_schema, Schema.requiredKeys, requiredOf]
    exact emitReq_keys_sub key m req
  | unknown nb => simp [InferredSchema.into_schema, Schema.requiredKeys]
  | boolean nb => simp [InferredSchema.into_schema, Schema.requiredKeys]
  | number nb k => simp [InferredSchema.into_schema, Schema.requiredKeys]
  | string nb => simp [InferredSchema.into_schema, Schema.requiredKeys]
  | timestamp nb => simp [InferredSchema.into_schema, Schema.requiredKeys]
  | enum nb vals => simp [InferredSchema.into_schema, Schema.requiredKeys]
  | elements nb c => simp [InferredSchema.into_schema, Schema.requiredKeys]
  | values nb c => simp [InferredSchema.into_schema, Schema.requiredKeys]
  | discriminator nb tag m => simp [InferredSchema.into_schema, Schema.requiredKeys]
  | any nb => simp [InferredSchema.into_schema, Schema.requiredKeys]

/-- C7: the required-key set of a `properties` node only shrinks under
merge; and a key absent from one folded object is out of the required set
after that merge and stays out for every sequence of further examples, also
in the emitted schema's required group. -/
theorem c7_optionality_monotone :
    (∀ (nb : Bool) (m : IMap) (req : List String) (v : Json) (h : Hints),
      requiredOf ((InferredSchema.properties nb m req).infer v h) ⊆ req)
    ∧ (∀ (nb : Bool) (m : IMap) (req : List String) (ms : JsonO) (h : Hints)
        (key : String) (rest : List Json),
      ms.hasKey key = false →
      key ∉ requiredOf (rest.foldl (fun s x => s.infer x h)
          ((InferredSchema.properties nb m req).infer (.obj ms) h))
      ∧ key ∉ (rest.foldl (fun s x => s.infer x h)
          ((InferredSchema.properties nb m req).infer (.obj ms) h)).into_schema.requiredKeys) := by
  constructor
  · exact requiredOf_infer_props
  · intro nb m req ms h key rest hms
    have hstart : (∃ nb2 m2 req2,
        (InferredSchema.properties nb m req).infer (.obj ms) h
          = .properties nb2 m2 req2 ∧ key ∉ req2) ∨
        (∃ nb2, (InferredSchema.properties nb m req).infer (.obj ms) h = .any nb2) := by
      refine .inl ⟨nb, inferMembers none m ms h, req.filter (fun k => ms.hasKey k),
        by simp [InferredSchema.infer], ?_⟩
      intro hmem
      have := List.of_mem_filter hmem
      simp [hms] at this
    have hnotreq := key_stays_unrequired_fold key h rest _ hstart
    exact ⟨hnotreq, fun hmem => hnotreq (requiredKeys_into_schema key _ hmem)⟩

/-! ## Order and sorted-insert lemmas -/

theorem insort_mem (s a : String) :
    ∀ l : List String, a ∈ insortStr s l ↔ a = s ∨ a ∈ l := by
  intro l
  induction l with
  | nil => simp [insortStr]
  | cons x xs ih =>
    by_cases h1 : s < x
    · simp [insortStr, h1]
    · by_cases h2 : x < s
      · simp only [insortStr, h1, if_false, h2, if_true, List.mem_cons, ih]
        tauto
      · have hsx : s = x := le_antisymm (not_lt.mp h2) (not_lt.mp h1)
        subst hsx
        simp [insortStr, h1, h2]

theorem insort_sorted (s : String) :
    ∀ l : List String, l.Pairwise (· < ·) → (insortStr s l).Pairwise (· < ·) := by
  intro l
  induction l with
  | nil => intro _; simp [insortStr]
  | cons x xs ih =>
    intro hp
    rcases List.pairwise_cons.mp hp with ⟨hx, hxs⟩
    by_cases h1 : s < x
    · simp only [insortStr, h1, if_true]
      exact List.pairwise_cons.mpr ⟨fun b hb => by
        rcases List.mem_cons.mp hb with rfl | hb
        · exact h1
        · exact lt_trans h1 (hx b hb), hp⟩
    · by_cases h2 : x < s
      · simp only [insortStr, h1, if_false, h2, if_true]
        refine List.pairwise_cons.mpr ⟨fun b hb => ?_, ih hxs⟩
        rcases (insort_mem s b xs).mp hb with rfl | hb
        · exact h2
        · exact hx b hb
      · have hsx : s = x := le_antisymm (not_lt.mp h2) (not_lt.mp h1)
        subst hsx
        simp only [insortStr, h1, if_false, h2, if_true]
        exact hp

theorem insort_idem (a : String) :
    ∀ l : List String, insortStr a (insortStr a l) = insortStr a l := by
  intro l
  induction l with
  | nil => simp [insortStr]
  | cons x xs ih =>
    by_cases h1 : a < x
    · simp [insortStr, h1, lt_irrefl]
    · by_cases h2 : x < a
      · simp [insortStr, h1, h2, ih]
      · have hax : a = x := le_antisymm (not_lt.mp h2) (not_lt.mp h1)
        subst hax
        simp [insortStr, h1, h2]

theorem insort_comm (a b : String) :
    ∀ l : List String, insortStr a (insortStr b l) = insortStr b (insortStr a l) := by
  intro l
  rcases lt_trichotomy a b with hab | rfl | hab
  · induction l with
    | nil => simp [insortStr, hab, not_lt.mpr (le_of_lt hab), lt_irrefl]
    | cons x xs ih =>
      rcases lt_trichotomy b x with hbx | rfl | hbx
      · have hax : a < x := lt_trans hab hbx
        simp [insortStr, hbx, hax, hab, not_lt.mpr (le_of_lt hab)]
      · simp [insortStr, hab, lt_irrefl, not_lt.mpr (le_of_lt hab)]
      · rcases lt_trichotomy a x with hax | rfl | hax
        · simp [insortStr, hax, hbx, not_lt.mpr (le_of_lt hbx), hab,
            not_lt.mpr (le_of_lt hab)]
        · simp [insortStr, hbx, not_lt.mpr (le_of_lt hbx), lt_irrefl, hab]
        · simp only [insortStr, not_lt.mpr (le_of_lt hbx), if_false, hbx, if_true,
            not_lt.mpr (le_of_lt hax), hax, ih]
  · rfl
  · induction l with
    | nil => simp [insortStr, hab, not_lt.mpr (le_of_lt hab), lt_irrefl]
    | cons x xs ih =>
      rcases lt_trichotomy a x with hax | rfl | hax
      · have hbx : b < x := lt_trans hab hax
        simp [insortStr, hbx, hax, hab, not_lt.mpr (le_of_lt hab)]
      · simp [insortStr, hab, lt_irrefl, not_lt.mpr (le_of_lt hab)]
      · rcases lt_trichotomy b x with hbx | rfl | hbx
        · simp [insortStr, hbx, hax, not_lt.mpr (le_of_lt hax), hab,
            not_lt.mpr (le_of_lt hab)]
        · simp [insortStr, hax, not_lt.mpr (le_of_lt hax), lt_irrefl, hab]
        · simp only [insortStr, not_lt.mpr (le_of_lt hax), if_false, hax, if_true,
            not_lt.mpr (le_of_lt hbx), hbx, ih]

theorem sortedKeysExcept_sorted (skip : Option String) :
    ∀ ms : JsonO, (sortedKeysExcept skip ms).Pairwise (· < ·)
  | .nil => by simp [sortedKeysExcept]
  | .cons k v tl => by
    by_cases h : skip = some k
    · simpa [sortedKeysExcept, h] using sortedKeysExcept_sorted skip tl
    · simp only [sortedKeysExcept, h, if_false]
      exact insort_sorted k _ (sortedKeysExcept_sorted skip tl)

theorem sortedKeysExcept_mem (skip : Option String) (a : String) :
    ∀ ms : JsonO, a ∈ sortedKeysExcept skip ms ↔ (ms.hasKey a = true ∧ skip ≠ some a)
  | .nil => by simp [sortedKeysExcept, JsonO.hasKey]
  | .cons k v tl => by
    by_cases h : skip = some k
    · subst h
      simp only [sortedKeysExcept, if_true, sortedKeysExcept_mem _ a tl,
        JsonO.hasKey, Bool.or_eq_true, decide_eq_true_eq]
      constructor
      · rintro ⟨hk, hne⟩
        exact ⟨Or.inr hk, hne⟩
      · rintro ⟨hk | hk, hne⟩
        · exact absurd (congrArg some hk.symm) hne
        · exact ⟨hk, hne⟩
    · simp only [sortedKeysExcept, h, if_false, insort_mem,
        sortedKeysExcept_mem skip a tl, JsonO.hasKey, Bool.or_eq_true,
        decide_eq_true_eq]
      constructor
      · rintro (rfl | ⟨hk, hne⟩)
        · exact ⟨Or.inl rfl, fun hc => h (hc ▸ rfl)⟩
        · exact ⟨Or.inr hk, hne⟩
      · rintro ⟨hk | hk, hne⟩
        · exact Or.inl hk
        · exact Or.inr ⟨hk, hne⟩

/-- Filtering the (deduplicated) keys of an object by presence in that same
object changes nothing. -/
theorem sortedKeysExcept_filter_self (skip : Option String) (ms : JsonO) :
    (sortedKeysExcept skip ms).filter (fun k => ms.hasKey k) = sortedKeysExcept skip ms := by
  apply List.filter_eq_self.mpr
  intro a ha
  exact ((sortedKeysExcept_mem skip a ms).mp ha).1

/-- Two sorted duplicate-free string lists with the same members are equal. -/
theorem sorted_eq_of_mem_iff {l l' : List String}
    (hl : l.Pairwise (· < ·)) (hl' : l'.Pairwise (· < ·))
    (hmem : ∀ a, a ∈ l ↔ a ∈ l') : l = l' := by
  apply List.eq_of_perm_of_sorted ?_ hl hl'
  have hnd : l.Nodup := hl.imp ne_of_lt
  have hnd' : l'.Nodup := hl'.imp ne_of_lt
  exact (List.perm_ext_iff_of_nodup hnd hnd').mpr hmem

/-- The symmetric intersection law for required keys: the keys of `ms1`
filtered by presence in `ms2` equal the keys of `ms2` filtered by presence
in `ms1`. -/
theorem sortedKeysExcept_filter_comm (skip : Option String) (ms1 ms2 : JsonO) :
    (sortedKeysExcept skip ms1).filter (fun k => ms2.hasKey k)
      = (sortedKeysExcept skip ms2).filter (fun k => ms1.hasKey k) := by
  apply sorted_eq_of_mem_iff
  · exact List.Pairwise.filter _ (sortedKeysExcept_sorted skip ms1)
  · exact List.Pairwise.filter _ (sortedKeysExcept_sorted skip ms2)
  · intro a
    simp only [List.mem_filter, sortedKeysExcept_mem, decide_eq_true_eq]
    tauto

/-! ## Map lemmas -/

namespace IMap

theorem find?_insertAt_self (k : String) (c : InferredSchema) :
    ∀ m : IMap, (m.insertAt k c).find? k = some c
  | .nil => by simp [insertAt, find?]
  | .cons k' c' tl => by
    by_cases h1 : k < k'
    · simp [insertAt, h1, find?]
    · by_cases h2 : k' < k
      · have hne : ¬(k = k') := fun hc => absurd (hc ▸ h2) (lt_irrefl k)
        simp [insertAt, h1, h2, find?, hne, find?_insertAt_self k c tl]
      · simp [insertAt, h1, h2, find?]

theorem find?_insertAt_ne (k k2 : String) (c : InferredSchema) (hne : k2 ≠ k) :
    ∀ m : IMap, (m.insertAt k c).find? k2 = m.find? k2
  | .nil => by simp [insertAt, find?, hne]
  | .cons k' c' tl => by
    by_cases h1 : k < k'
    · simp [insertAt, h1, find?, hne]
    · by_cases h2 : k' < k
      · simp only [insertAt, h1, if_false, h2, if_true, find?]
        by_cases h3 : k2 = k'
        · simp [h3]
        · simp [h3, find?_insertAt_ne k k2 c hne tl]
      · have hkk : k = k' := le_antisymm (not_lt.mp h2) (not_lt.mp h1)
        subst hkk
        simp [insertAt, h1, h2, find?, hne]

theorem insertAt_insertAt_self (k : String) (c1 c2 : InferredSchema) :
    ∀ m : IMap, (m.insertAt k c1).insertAt k c2 = m.insertAt k c2
  | .nil => by simp [insertAt, lt_irrefl]
  | .cons k' c' tl => by
    by_cases h1 : k < k'
    · simp [insertAt, h1, lt_irrefl]
    · by_cases h2 : k' < k
      · simp [insertAt, h1, h2, insertAt_insertAt_self k c1 c2 tl]
      · simp [insertAt, h1, h2, lt_irrefl]

theorem insertAt_comm (k1 k2 : String) (c1 c2 : InferredSchema)
    (hne : k1 ≠ k2) :
    ∀ m : IMap, (m.insertAt k1 c1).insertAt k2 c2 = (m.insertAt k2 c2).insertAt k1 c1
  | .nil => by
    rcases lt_trichotomy k1 k2 with h | h | h
    · simp [insertAt, h, asymm h, lt_irrefl]
    · exact absurd h hne
    · simp [insertAt, h, asymm h, lt_irrefl]
  | .cons k' c' tl => by
    rcases lt_trichotomy k1 k' with h1 | h1 | h1
    · rcases lt_trichotomy k2 k' with h2 | h2 | h2
      · rcases lt_trichotomy k1 k2 with h12 | h12 | h12
        · simp [insertAt, h1, h2, h12, asymm h12, asymm h1, asymm h2]
        · exact absurd h12 hne
        · simp [insertAt, h1, h2, h12, asymm h12, asymm h1, asymm h2]
      · subst h2
        have h12 : k1 < k2 := h1
        simp [insertAt, h1, h12, asymm h12, lt_irrefl]
      · have h12 : k1 < k2 := lt_trans h1 h2
        simp [insertAt, h1, h2, h12, asymm h12, asymm h1, asymm h2]
    · subst h1
      rcases lt_trichotomy k2 k1 with h2 | h2 | h2
      · simp [insertAt, h2, asymm h2, lt_irrefl]
      · exact absurd h2.symm hne
      · simp [insertAt, h2, asymm h2, lt_irrefl]
    · rcases lt_trichotomy k2 k' with h2 | h2 | h2
      · have h21 : k2 < k1 := lt_trans h2 h1
        simp [insertAt, h1, h2, h21, asymm h21, asymm h1, asymm h2]
      · subst h2
        have h21 : k2 < k1 := h1
        simp [insertAt, h1, h21, asymm h21, lt_irrefl]
      · simp [insertAt, h1, h2, asymm h1, asymm h2,
          insertAt_comm k1 k2 c1 c2 hne tl]

end IMap

/-! ## Numeric-lattice lemmas -/

theorem join_comm : ∀ a b : NumType, a.join b = b.join a := by decide

theorem join_exch : ∀ k a b : NumType, (k.join a).join b = (k.join b).join a := by
  decide

theorem join_ub_l : ∀ a b : NumType, a.le (a.join b) = true := by decide

theorem join_ub_r : ∀ a b : NumType, b.le (a.join b) = true := by decide

theorem le_accepts (a b : NumType) (n : JNum) (hle : a.le b = true)
    (hacc : a.accepts n = true) : b.accepts n = true := by
  cases a <;> cases b <;> simp_all [NumType.le] <;> cases n <;>
    simp_all [NumType.accepts] <;> omega

theorem classify_accepts (d : NumType) (n : JNum) :
    (NumType.classify d n).accepts n = true := by
  cases n with
  | int i =>
    by_cases hd : d.accepts (JNum.int i) = true
    · simp [NumType.classify, hd]
    · simp only [NumType.classify, hd, if_false, NumType.smallestFit]
      split_ifs <;> simp_all [NumType.accepts] <;> omega
  | frac f =>
    by_cases hd : d.accepts (JNum.frac f) = true
    · simp [NumType.classify, hd]
    · simp only [NumType.classify, hd, if_false, NumType.smallestFit]
      cases f <;> simp [NumType.accepts]

/-! ## Nullable-flag lemmas -/

/-- Merging with the nullable flag forced commutes with merging a value. -/
theorem setNullable_infer (t : InferredSchema) (v : Json) (h : Hints) :
    t.setNullable.infer v h = (t.infer v h).setNullable := by
  cases t with
  | unknown nb =>
    cases v with
    | null => simp [InferredSchema.infer, InferredSchema.setNullable]
    | bool b => simp [InferredSchema.infer, InferredSchema.setNullable]
    | num n => simp [InferredSchema.infer, InferredSchema.setNullable]
    | str s =>
      by_cases hA : h.enum_hints.isActive = true <;>
        by_cases hB : isTimestamp s = true <;>
        simp [InferredSchema.infer, InferredSchema.setNullable, hA, hB]
    | arr xs => simp [InferredSchema.infer, InferredSchema.setNullable]
    | obj ms =>
      cases hpk : h.discriminator_hints.peekTag with
      | some tag =>
        cases hfs : JsonO.findStr? tag ms with
        | some d =>
          simp [InferredSchema.infer, InferredSchema.setNullable, hpk, hfs]
        | none =>
          simp [InferredSchema.infer, InferredSchema.setNullable, hpk, hfs]
      | none =>
        by_cases hva : h.values_hints.isActive = true <;>
          simp [InferredSchema.infer, InferredSchema.setNullable, hpk, hva]
  | boolean nb =>
    cases v <;>
      simp [InferredSchema.infer, InferredSchema.setNullable, InferredSchema.nullableOf]
  | number nb k =>
    cases v <;>
      simp [InferredSchema.infer, InferredSchema.setNullable, InferredSchema.nullableOf]
  | string nb =>
    cases v <;>
      simp [InferredSchema.infer, InferredSchema.setNullable, InferredSchema.nullableOf]
  | timestamp nb =>
    cases v with
    | str s =>
      by_cases hB : isTimestamp s = true <;>
        simp [InferredSchema.infer, InferredSchema.setNullable, hB]
    | null => simp [InferredSchema.infer, InferredSchema.setNullable]
    | bool b =>
      simp [InferredSchema.infer, InferredSchema.setNullable, InferredSchema.nullableOf]
    | num n =>
      simp [InferredSchema.infer, InferredSchema.setNullable, InferredSchema.nullableOf]
    | arr xs =>
      simp [InferredSchema.infer, InferredSchema.setNullable, InferredSchema.nullableOf]
    | obj ms =>
      simp [InferredSchema.infer, InferredSchema.setNullable, InferredSchema.nullableOf]
  | enum nb vals =>
    cases v <;>
      simp [InferredSchema.infer, InferredSchema.setNullable, InferredSchema.nullableOf]
  | elements nb c =>
    cases v <;>
      simp [InferredSchema.infer, InferredSchema.setNullable, InferredSchema.nullableOf]
  | properties nb m req =>
    cases v <;>
      simp [InferredSchema.infer, InferredSchema.setNullable, InferredSchema.nullableOf]
  | values nb c =>
    cases v <;>
      simp [InferredSchema.infer, InferredSchema.setNullable, InferredSchema.nullableOf]
  | discriminator nb tag m =>
    cases v with
    | obj ms =>
      cases hfs : JsonO.findStr? tag ms with
      | some d =>
        simp [InferredSchema.infer, InferredSchema.setNullable, hfs]
      | none =>
        simp [InferredSchema.infer, InferredSchema.setNullable, hfs,
          InferredSchema.nullableOf]
    | null => simp [InferredSchema.infer, InferredSchema.setNullable]
    | bool b =>
      simp [InferredSchema.infer, InferredSchema.setNullable, InferredSchema.nullableOf]
    | num n =>
      simp [InferredSchema.infer, InferredSchema.setNullable, InferredSchema.nullableOf]
    | str s =>
      simp [InferredSchema.infer, InferredSchema.setNullable, InferredSchema.nullableOf]
    | arr xs =>
      simp [InferredSchema.infer, InferredSchema.setNullable, InferredSchema.nullableOf]
  | any nb =>
    cases v <;>
      simp [InferredSchema.infer, InferredSchema.setNullable, InferredSchema.nullableOf]

/-! ## Well-formedness: sorted maps and sorted sets everywhere

Trees built by folding examples into a fresh `Inferrer` keep every map
key-sorted and every string set sorted; this is the invariant under which
merge is proved order-independent. -/

/-- All keys of the map are above `k`. -/
def IMap.keysGt (k : String) : IMap → Prop
  | .nil => True
  | .cons k2 _ tl => k < k2 ∧ keysGt k tl

mutual
/-- Well-formedness of an inferred tree: sorted enum sets, sorted required
sets, key-sorted maps, recursively. -/
def InferredSchema.wf : InferredSchema → Prop
  | .unknown _ => True
  | .boolean _ => True
  | .number _ _ => True
  | .string _ => True
  | .timestamp _ => True
  | .enum _ vals => vals.Pairwise (· < ·)
  | .elements _ c => c.wf
  | .properties _ m req => m.wfm ∧ req.Pairwise (· < ·)
  | .values _ c => c.wf
  | .discriminator _ _ m => m.wfm
  | .any _ => True

/-- Well-formedness of a map: strictly increasing keys, well-formed
children. -/
def IMap.wfm : IMap → Prop
  | .nil => True
  | .cons k c tl => c.wf ∧ tl.keysGt k ∧ tl.wfm
end

theorem setNullable_wf (t : InferredSchema) (ht : t.wf) : t.setNullable.wf := by
  cases t <;> simpa [InferredSchema.setNullable, InferredSchema.wf] using ht

theorem find?_wf (k : String) :
    ∀ m : IMap, m.wfm → ∀ c, m.find? k = some c → c.wf
  | .nil => by simp [IMap.find?]
  | .cons k2 c2 tl => by
    intro hm c hc
    rcases hm with ⟨hc2, _, htl⟩
    by_cases hk : k = k2
    · simp [IMap.find?, hk] at hc
      exact hc ▸ hc2
    · simp [IMap.find?, hk] at hc
      exact find?_wf k tl htl c hc

theorem insertAt_keysGt (k k0 : String) (c : InferredSchema) (hk : k0 < k) :
    ∀ m : IMap, m.keysGt k0 → (m.insertAt k c).keysGt k0
  | .nil => by simp [IMap.insertAt, IMap.keysGt, hk]
  | .cons k2 c2 tl => by
    intro hm
    rcases hm with ⟨h0, htl⟩
    by_cases h1 : k < k2
    · simp only [IMap.insertAt, h1, if_true, IMap.keysGt]
      refine ⟨hk, h0, htl⟩
    · by_cases h2 : k2 < k
      · simp only [IMap.insertAt, h1, if_false, h2, if_true, IMap.keysGt]
        exact ⟨h0, insertAt_keysGt k k0 c hk tl htl⟩
      · simp only [IMap.insertAt, h1, if_false, h2, IMap.keysGt]
        exact ⟨hk, htl⟩

theorem keysGt_mono (k k2 : String) (hk : k < k2) :
    ∀ m : IMap, m.keysGt k2 → m.keysGt k
  | .nil => by simp [IMap.keysGt]
  | .cons k3 c3 tl => by
    rintro ⟨h3, htl⟩
    exact ⟨lt_trans hk h3, keysGt_mono k k2 hk tl htl⟩

theorem insertAt_wfm (k : String) (c : InferredSchema) (hc : c.wf) :
    ∀ m : IMap, m.wfm → (m.insertAt k c).wfm
  | .nil => by simp [IMap.insertAt, IMap.wfm, IMap.keysGt, hc]
  | .cons k2 c2 tl => by
    intro hm
    have hm' := hm
    rw [IMap.wfm] at hm'
    rcases hm' with ⟨hc2, hgt, htl⟩
    by_cases h1 : k < k2
    · simp only [IMap.insertAt, h1, if_true]
      rw [IMap.wfm]
      exact ⟨hc, ⟨h1, keysGt_mono k k2 h1 tl hgt⟩, hm⟩
    · by_cases h2 : k2 < k
      · simp only [IMap.insertAt, h1, if_false, h2, if_true]
        rw [IMap.wfm]
        exact ⟨hc2, insertAt_keysGt k k2 c h2 tl hgt, insertAt_wfm k c hc tl htl⟩
      · have hkk : k = k2 := le_antisymm (not_lt.mp h2) (not_lt.mp h1)
        subst hkk
        simp only [IMap.insertAt, h1, h2, if_false]
        rw [IMap.wfm]
        exact ⟨hc, hgt, htl⟩

/-- The §4.3 variant step of a discriminator entry keeps well-formedness. -/
theorem variant_step_wf (tag : String) (ms : JsonO) (h : Hints)
    (sub : InferredSchema) (hsub : sub.wf)
    (hstep : ∀ (skip : Option String) (m : IMap), m.wfm →
      (inferMembers skip m ms h).wfm) :
    (match sub with
      | .properties nb2 m2 req2 =>
        InferredSchema.properties nb2 (inferMembers (some tag) m2 ms h)
          (req2.filter (fun k => ms.hasKey k))
      | sub => .any sub.nullableOf).wf := by
  cases sub with
  | properties nb2 m2 req2 =>
    rw [InferredSchema.wf] at hsub ⊢
    exact ⟨hstep (some tag) m2 hsub.1, List.Pairwise.filter _ hsub.2⟩
  | unknown nb => simp [InferredSchema.wf]
  | boolean nb => simp [InferredSchema.wf]
  | number nb k => simp [InferredSchema.wf]
  | string nb => simp [InferredSchema.wf]
  | timestamp nb => simp [InferredSchema.wf]
  | enum nb vals => simp [InferredSchema.wf]
  | elements nb c => simp [InferredSchema.wf]
  | values nb c => simp [InferredSchema.wf]
  | discriminator nb tag2 m2 => simp [InferredSchema.wf]
  | any nb => simp [InferredSchema.wf]

mutual
/-- Merge preserves well-formedness. -/
theorem infer_wf (v : Json) : ∀ (t : InferredSchema) (h : Hints),
    t.wf → (t.infer v h).wf := by
  intro t h ht
  cases v with
  | null =>
    rw [InferredSchema.infer.eq_1]
    exact setNullable_wf t ht
  | bool b =>
    cases t <;> simp_all [InferredSchema.infer, InferredSchema.wf]
  | num n =>
    cases t <;> simp_all [InferredSchema.infer, InferredSchema.wf]
  | str s =>
    cases t with
    | unknown nb =>
      by_cases hA : h.enum_hints.isActive = true <;>
        by_cases hB : isTimestamp s = true <;>
        simp [InferredSchema.infer, InferredSchema.wf, hA, hB]
    | timestamp nb =>
      by_cases hB : isTimestamp s = true <;>
        simp [InferredSchema.infer, InferredSchema.wf, hB]
    | enum nb vals =>
      rw [InferredSchema.wf] at ht
      simp only [InferredSchema.infer]
      rw [InferredSchema.wf]
      exact insort_sorted s vals ht
    | boolean nb => simp [InferredSchema.infer, InferredSchema.wf]
    | number nb k => simp [InferredSchema.infer, InferredSchema.wf]
    | string nb => simp [InferredSchema.infer, InferredSchema.wf]
    | elements nb c => simp [InferredSchema.infer, InferredSchema.wf]
    | properties nb m req => simp [InferredSchema.infer, InferredSchema.wf]
    | values nb c => simp [InferredSchema.infer, InferredSchema.wf]
    | discriminator nb tag m => simp [InferredSchema.infer, InferredSchema.wf]
    | any nb => simp [InferredSchema.infer, InferredSchema.wf]
  | arr xs =>
    cases t with
    | unknown nb =>
      simp only [InferredSchema.infer]
      rw [InferredSchema.wf]
      exact inferElems_wf xs unknownS h (by simp [unknownS, InferredSchema.wf])
    | elements nb c =>
      rw [InferredSchema.wf] at ht
      simp only [InferredSchema.infer]
      rw [InferredSchema.wf]
      exact inferElems_wf xs c h ht
    | boolean nb => simp [InferredSchema.infer, InferredSchema.wf]
    | number nb k => simp [InferredSchema.infer, InferredSchema.wf]
    | string nb => simp [InferredSchema.infer, InferredSchema.wf]
    | timestamp nb => simp [InferredSchema.infer, InferredSchema.wf]
    | enum nb vals => simp [InferredSchema.infer, InferredSchema.wf]
    | properties nb m req => simp [InferredSchema.infer, InferredSchema.wf]
    | values nb c => simp [InferredSchema.infer, InferredSchema.wf]
    | discriminator nb tag m => simp [InferredSchema.infer, InferredSchema.wf]
    | any nb => simp [InferredSchema.infer, InferredSchema.wf]
  | obj ms =>
    cases t with
    | unknown nb =>
      cases hpk : h.discriminator_hints.peekTag with
      | some tag =>
        cases hfs : JsonO.findStr? tag ms with
        | some d =>
          simp only [InferredSchema.infer, hpk, hfs]
          rw [InferredSchema.wf]
          apply insertAt_wfm
          · rw [InferredSchema.wf]
            exact ⟨inferMembers_wfm ms (some tag) IMap.nil h (by rw [IMap.wfm]; trivial),
              sortedKeysExcept_sorted (some tag) ms⟩
          · rw [IMap.wfm]; trivial
        | none => simp [InferredSchema.infer, hpk, hfs, InferredSchema.wf]
      | none =>
        cases hva : h.values_hints.isActive with
        | true =>
          have hred : (InferredSchema.unknown nb).infer (.obj ms) h
              = .values nb (inferValuesFold unknownS ms h) := by
            simp [InferredSchema.infer, hpk, hva]
          rw [hred, InferredSchema.wf]
          exact inferValuesFold_wf ms unknownS h (by simp [unknownS, InferredSchema.wf])
        | false =>
          have hred : (InferredSchema.unknown nb).infer (.obj ms) h
              = .properties nb (inferMembers none IMap.nil ms h)
                  (sortedKeysExcept none ms) := by
            simp [InferredSchema.infer, hpk, hva]
          rw [hred, InferredSchema.wf]
          exact ⟨inferMembers_wfm ms none IMap.nil h (by rw [IMap.wfm]; trivial),
            sortedKeysExcept_sorted none ms⟩
    | properties nb m req =>
      rw [InferredSchema.wf] at ht
      simp only [InferredSchema.infer]
      rw [InferredSchema.wf]
      exact ⟨inferMembers_wfm ms none m h ht.1, List.Pairwise.filter _ ht.2⟩
    | values nb c =>
      rw [InferredSchema.wf] at ht
      simp only [InferredSchema.infer]
      rw [InferredSchema.wf]
      exact inferValuesFold_wf ms c h ht
    | discriminator nb tag m =>
      rw [InferredSchema.wf] at ht
      cases hfs : JsonO.findStr? tag ms with
      | some d =>
        simp only [InferredSchema.infer, hfs]
        rw [InferredSchema.wf]
        apply insertAt_wfm
        · apply variant_step_wf tag ms h
          · cases hfind : m.find? d with
            | some s0 => exact find?_wf d m ht s0 hfind
            | none =>
              rw [Option.getD]
              rw [InferredSchema.wf]
              exact ⟨by rw [IMap.wfm]; trivial, sortedKeysExcept_sorted (some tag) ms⟩
          · intro skip m2 hm2
            exact inferMembers_wfm ms skip m2 h hm2
        · exact ht
      | none => simp [InferredSchema.infer, hfs, InferredSchema.wf]
    | boolean nb => simp [InferredSchema.infer, InferredSchema.wf]
    | number nb k => simp [InferredSchema.infer, InferredSchema.wf]
    | string nb => simp [InferredSchema.infer, InferredSchema.wf]
    | timestamp nb => simp [InferredSchema.infer, InferredSchema.wf]
    | enum nb vals => simp [InferredSchema.infer, InferredSchema.wf]
    | elements nb c => simp [InferredSchema.infer, InferredSchema.wf]
    | any nb => simp [InferredSchema.infer, InferredSchema.wf]
termination_by sizeOf v

theorem inferElems_wf (xs : JsonL) : ∀ (c : InferredSchema) (h : Hints),
    c.wf → (inferElems c xs h).wf := by
  intro c h hc
  cases xs with
  | nil => simpa [inferElems] using hc
  | cons x tl =>
    simp only [inferElems]
    exact inferElems_wf tl (c.infer x h) h (infer_wf x c h hc)
termination_by sizeOf xs

theorem inferMembers_wfm (ms : JsonO) : ∀ (skip : Option String) (m : IMap) (h : Hints),
    m.wfm → (inferMembers skip m ms h).wfm := by
  intro skip m h hm
  cases ms with
  | nil => simpa [inferMembers] using hm
  | cons k val tl =>
    by_cases hskip : skip = some k
    · simp only [inferMembers, hskip, if_true]
      exact inferMembers_wfm tl (some k) m h hm
    · simp only [inferMembers, hskip, if_false]
      apply inferMembers_wfm tl skip _ h
      apply insertAt_wfm
      · apply infer_wf
        cases hfind : m.find? k with
        | some c0 => simpa [Option.getD] using find?_wf k m hm c0 hfind
        | none => simp [Option.getD, unknownS, InferredSchema.wf]
      · exact hm
termination_by sizeOf ms

theorem inferValuesFold_wf (ms : JsonO) : ∀ (c : InferredSchema) (h : Hints),
    c.wf → (inferValuesFold c ms h).wf := by
  intro c h hc
  cases ms with
  | nil => simpa [inferValuesFold] using hc
  | cons k val tl =>
    simp only [inferValuesFold]
    exact inferValuesFold_wf tl (c.infer val h) h (infer_wf val c h hc)
termination_by sizeOf ms
end

/-! ## Exchange: merge is order-independent on well-formed trees -/

/-- One member-merge step of `inferMembers`. -/
def stepM (h : Hints) (k : String) (val : Json) (m : IMap) : IMap :=
  m.insertAt k (((m.find? k).getD unknownS).infer val (h.sub k))

theorem inferMembers_cons (skip : Option String) (m : IMap) (k : String)
    (val : Json) (tl : JsonO) (h : Hints) :
    inferMembers skip m (.cons k val tl) h
      = if skip = some k then inferMembers skip m tl h
        else inferMembers skip (stepM h k val m) tl h := by
  by_cases hskip : skip = some k <;> simp [inferMembers, stepM, hskip]

/-- The discriminator-entry step of §4.3. -/
def vstep (h : Hints) (tag : String) (ms : JsonO) (sub : InferredSchema) :
    InferredSchema :=
  match sub with
  | .properties nb2 m2 req2 =>
    .properties nb2 (inferMembers (some tag) m2 ms h)
      (req2.filter (fun k => ms.hasKey k))
  | sub => .any sub.nullableOf

/-- The fresh entry a new discriminant starts from. -/
def freshVariant (tag : String) (ms : JsonO) : InferredSchema :=
  .properties false .nil (sortedKeysExcept (some tag) ms)

theorem infer_disc_obj (nb : Bool) (tag : String) (m : IMap) (ms : JsonO)
    (h : Hints) :
    (InferredSchema.discriminator nb tag m).infer (.obj ms) h
      = match ms.findStr? tag with
        | some d =>
          .discriminator nb tag (m.insertAt d
            (vstep h tag ms ((m.find? d).getD (freshVariant tag ms))))
        | none => .any nb := by
  cases hfs : JsonO.findStr? tag ms <;>
    simp [InferredSchema.infer, hfs, vstep, freshVariant]

theorem infer_unknown_obj_disc (nb : Bool) (tag : String) (ms : JsonO)
    (h : Hints) (hpk : h.discriminator_hints.peekTag = some tag) :
    (InferredSchema.unknown nb).infer (.obj ms) h
      = match ms.findStr? tag with
        | some d =>
          .discriminator nb tag (IMap.nil.insertAt d (vstep h tag ms (freshVariant tag ms)))
        | none => .any nb := by
  cases hfs : JsonO.findStr? tag ms with
  | some d =>
    simp [InferredSchema.infer, hpk, hfs, vstep, freshVariant,
      sortedKeysExcept_filter_self]
  | none => simp [InferredSchema.infer, hpk, hfs]

theorem infer_disc_obj_some (nb : Bool) (tag : String) (m : IMap) (ms : JsonO)
    (h : Hints) (d : String) (hfs : ms.findStr? tag = some d) :
    (InferredSchema.discriminator nb tag m).infer (.obj ms) h
      = .discriminator nb tag (m.insertAt d
          (vstep h tag ms ((m.find? d).getD (freshVariant tag ms)))) := by
  rw [infer_disc_obj, hfs]

theorem infer_disc_obj_none (nb : Bool) (tag : String) (m : IMap) (ms : JsonO)
    (h : Hints) (hfs : ms.findStr? tag = none) :
    (InferredSchema.discriminator nb tag m).infer (.obj ms) h = .any nb := by
  rw [infer_disc_obj, hfs]

theorem infer_unknown_obj_disc_some (nb : Bool) (tag : String) (ms : JsonO)
    (h : Hints) (d : String) (hpk : h.discriminator_hints.peekTag = some tag)
    (hfs : ms.findStr? tag = some d) :
    (InferredSchema.unknown nb).infer (.obj ms) h
      = .discriminator nb tag
          (IMap.nil.insertAt d (vstep h tag ms (freshVariant tag ms))) := by
  rw [infer_unknown_obj_disc nb tag ms h hpk, hfs]

theorem infer_unknown_obj_disc_none (nb : Bool) (tag : String) (ms : JsonO)
    (h : Hints) (hpk : h.discriminator_hints.peekTag = some tag)
    (hfs : ms.findStr? tag = none) :
    (InferredSchema.unknown nb).infer (.obj ms) h = .any nb := by
  rw [infer_unknown_obj_disc nb tag ms h hpk, hfs]

theorem stepM_wfm (h : Hints) (k : String) (val : Json) (m : IMap)
    (hm : m.wfm) : (stepM h k val m).wfm := by
  apply insertAt_wfm
  · apply infer_wf
    cases hfind : m.find? k with
    | some c0 => simpa [Option.getD] using find?_wf k m hm c0 hfind
    | none => simp [Option.getD, unknownS, InferredSchema.wf]
  · exact hm

theorem getD_find_wf (m : IMap) (k : String) (hm : m.wfm) :
    ((m.find? k).getD unknownS).wf := by
  cases hfind : m.find? k with
  | some c0 => simpa [Option.getD] using find?_wf k m hm c0 hfind
  | none => simp [Option.getD, unknownS, InferredSchema.wf]

theorem freshVariant_wf (tag : String) (ms : JsonO) : (freshVariant tag ms).wf := by
  rw [freshVariant, InferredSchema.wf]
  exact ⟨by rw [IMap.wfm]; trivial, sortedKeysExcept_sorted (some tag) ms⟩

theorem getD_find_fresh_wf (m : IMap) (d : String) (tag : String) (ms : JsonO)
    (hm : m.wfm) : ((m.find? d).getD (freshVariant tag ms)).wf := by
  cases hfind : m.find? d with
  | some c0 => simpa [Option.getD] using find?_wf d m hm c0 hfind
  | none => simpa [Option.getD] using freshVariant_wf tag ms

/-- Internal form of the §4.3 conflict degradation. -/
theorem infer_conflict (t : InferredSchema) (v : Json) (h : Hints)
    (hc : conflict t v = true) : t.infer v h = .any t.nullableOf := by
  cases t <;> cases v <;>
    simp_all [conflict, InferredSchema.infer, InferredSchema.nullableOf]

theorem exch_null_l (t : InferredSchema) (w : Json) (h : Hints) :
    (t.infer .null h).infer w h = (t.infer w h).infer .null h := by
  rw [InferredSchema.infer.eq_1, InferredSchema.infer.eq_1]
  exact setNullable_infer t w h


/-! ## Shape classification: off-diagonal merges degrade uniformly -/

/-- The outer shape of a JSON value (0 null, 1 bool, 2 num, 3 str, 4 arr,
5 obj). -/
def jshape : Json → Nat
  | .null => 0
  | .bool _ => 1
  | .num _ => 2
  | .str _ => 3
  | .arr _ => 4
  | .obj _ => 5

/-- The shape class of a variant (0 unknown, 6 any, else the `jshape` of the
values the variant's same-shape merge rule matches). -/
def tshape : InferredSchema → Nat
  | .unknown _ => 0
  | .boolean _ => 1
  | .number _ _ => 2
  | .string _ => 3
  | .timestamp _ => 3
  | .enum _ _ => 3
  | .elements _ _ => 4
  | .properties _ _ _ => 5
  | .values _ _ => 5
  | .discriminator _ _ _ => 5
  | .any _ => 6

theorem conflict_true_of_shapes (t : InferredSchema) (w : Json)
    (h1 : tshape t ≠ 0) (h2 : tshape t ≠ 6) (h3 : jshape w ≠ 0)
    (h4 : tshape t ≠ jshape w) : conflict t w = true := by
  cases t <;> cases w <;> simp_all [tshape, jshape, conflict]

theorem jshape_ne_zero (v : Json) (hv : v ≠ .null) : jshape v ≠ 0 := by
  cases v <;> simp_all [jshape]

theorem jshape_ne_six (v : Json) : jshape v ≠ 6 := by
  cases v <;> simp [jshape]

theorem infer_any (nb : Bool) (w : Json) (h : Hints) (hw : w ≠ .null) :
    (InferredSchema.any nb).infer w h = .any nb := by
  cases w with
  | null => exact absurd rfl hw
  | bool b => simp [InferredSchema.infer]
  | num n => simp [InferredSchema.infer]
  | str s => simp [InferredSchema.infer]
  | arr xs => simp [InferredSchema.infer]
  | obj ms => simp [InferredSchema.infer]

/-- A non-null merge keeps the nullable flag. -/
theorem nullableOf_infer (t : InferredSchema) (v : Json) (h : Hints)
    (hv : v ≠ .null) : (t.infer v h).nullableOf = t.nullableOf := by
  cases v with
  | null => exact absurd rfl hv
  | bool b =>
    cases t <;> simp [InferredSchema.infer, InferredSchema.nullableOf]
  | num n =>
    cases t <;> simp [InferredSchema.infer, InferredSchema.nullableOf]
  | str s =>
    cases t with
    | unknown nb =>
      by_cases hA : h.enum_hints.isActive = true <;>
        by_cases hB : isTimestamp s = true <;>
        simp [InferredSchema.infer, InferredSchema.nullableOf, hA, hB]
    | timestamp nb =>
      by_cases hB : isTimestamp s = true <;>
        simp [InferredSchema.infer, InferredSchema.nullableOf, hB]
    | boolean nb => simp [InferredSchema.infer, InferredSchema.nullableOf]
    | number nb k => simp [InferredSchema.infer, InferredSchema.nullableOf]
    | string nb => simp [InferredSchema.infer, InferredSchema.nullableOf]
    | enum nb vals => simp [InferredSchema.infer, InferredSchema.nullableOf]
    | elements nb c => simp [InferredSchema.infer, InferredSchema.nullableOf]
    | properties nb m req => simp [InferredSchema.infer, InferredSchema.nullableOf]
    | values nb c => simp [InferredSchema.infer, InferredSchema.nullableOf]
    | discriminator nb tag m => simp [InferredSchema.infer, InferredSchema.nullableOf]
    | any nb => simp [InferredSchema.infer, InferredSchema.nullableOf]
  | arr xs =>
    cases t <;> simp [InferredSchema.infer, InferredSchema.nullableOf]
  | obj ms =>
    cases t with
    | unknown nb =>
      cases hpk : h.discriminator_hints.peekTag with
      | some tag =>
        cases hfs : JsonO.findStr? tag ms with
        | some d =>
          simp [InferredSchema.infer, InferredSchema.nullableOf, hpk, hfs]
        | none =>
          simp [InferredSchema.infer, InferredSchema.nullableOf, hpk, hfs]
      | none =>
        cases hva : h.values_hints.isActive with
        | true => simp [InferredSchema.infer, InferredSchema.nullableOf, hpk, hva]
        | false => simp [InferredSchema.infer, InferredSchema.nullableOf, hpk, hva]
    | discriminator nb tag m =>
      cases hfs : JsonO.findStr? tag ms with
      | some d => simp [InferredSchema.infer, InferredSchema.nullableOf, hfs]
      | none => simp [InferredSchema.infer, InferredSchema.nullableOf, hfs]
    | boolean nb => simp [InferredSchema.infer, InferredSchema.nullableOf]
    | number nb k => simp [InferredSchema.infer, InferredSchema.nullableOf]
    | string nb => simp [InferredSchema.infer, InferredSchema.nullableOf]
    | timestamp nb => simp [InferredSchema.infer, InferredSchema.nullableOf]
    | enum nb vals => simp [InferredSchema.infer, InferredSchema.nullableOf]
    | elements nb c => simp [InferredSchema.infer, InferredSchema.nullableOf]
    | properties nb m req => simp [InferredSchema.infer, InferredSchema.nullableOf]
    | values nb c => simp [InferredSchema.infer, InferredSchema.nullableOf]
    | any nb => simp [InferredSchema.infer, InferredSchema.nullableOf]

/-- A non-null merge produces either a variant of the value's own shape
class or the `Any` degradation. -/
theorem infer_shape_or_any (t : InferredSchema) (v : Json) (h : Hints)
    (hv : v ≠ .null) :
    tshape (t.infer v h) = jshape v ∨ t.infer v h = .any t.nullableOf := by
  cases v with
  | null => exact absurd rfl hv
  | bool b =>
    cases t <;>
      first
        | (left; simp [InferredSchema.infer, tshape, jshape]; done)
        | (right; simp [InferredSchema.infer, InferredSchema.nullableOf]; done)
  | num n =>
    cases t <;>
      first
        | (left; simp [InferredSchema.infer, tshape, jshape]; done)
        | (right; simp [InferredSchema.infer, InferredSchema.nullableOf]; done)
  | str s =>
    cases t with
    | unknown nb =>
      left
      by_cases hA : h.enum_hints.isActive = true <;>
        by_cases hB : isTimestamp s = true <;>
        simp [InferredSchema.infer, tshape, jshape, hA, hB]
    | timestamp nb =>
      left
      by_cases hB : isTimestamp s = true <;>
        simp [InferredSchema.infer, tshape, jshape, hB]
    | string nb => left; simp [InferredSchema.infer, tshape, jshape]
    | enum nb vals => left; simp [InferredSchema.infer, tshape, jshape]
    | boolean nb => right; simp [InferredSchema.infer, InferredSchema.nullableOf]
    | number nb k => right; simp [InferredSchema.infer, InferredSchema.nullableOf]
    | elements nb c => right; simp [InferredSchema.infer, InferredSchema.nullableOf]
    | properties nb m req =>
      right; simp [InferredSchema.infer, InferredSchema.nullableOf]
    | values nb c => right; simp [InferredSchema.infer, InferredSchema.nullableOf]
    | discriminator nb tag m =>
      right; simp [InferredSchema.infer, InferredSchema.nullableOf]
    | any nb => right; simp [InferredSchema.infer, InferredSchema.nullableOf]
  | arr xs =>
    cases t <;>
      first
        | (left; simp [InferredSchema.infer, tshape, jshape]; done)
        | (right; simp [InferredSchema.infer, InferredSchema.nullableOf]; done)
  | obj ms =>
    cases t with
    | unknown nb =>
      cases hpk : h.discriminator_hints.peekTag with
      | some tag =>
        cases hfs : JsonO.findStr? tag ms with
        | some d => left; simp [InferredSchema.infer, tshape, jshape, hpk, hfs]
        | none =>
          right
          simp [InferredSchema.infer, InferredSchema.nullableOf, hpk, hfs]
      | none =>
        cases hva : h.values_hints.isActive with
        | true => left; simp [InferredSchema.infer, tshape, jshape, hpk, hva]
        | false => left; simp [InferredSchema.infer, tshape, jshape, hpk, hva]
    | discriminator nb tag m =>
      cases hfs : JsonO.findStr? tag ms with
      | some d => left; simp [InferredSchema.infer, tshape, jshape, hfs]
      | none =>
        right
        simp [InferredSchema.infer, InferredSchema.nullableOf, hfs]
    | properties nb m req => left; simp [InferredSchema.infer, tshape, jshape]
    | values nb c => left; simp [InferredSchema.infer, tshape, jshape]
    | boolean nb => right; simp [InferredSchema.infer, InferredSchema.nullableOf]
    | number nb k => right; simp [InferredSchema.infer, InferredSchema.nullableOf]
    | string nb => right; simp [InferredSchema.infer, InferredSchema.nullableOf]
    | timestamp nb => right; simp [InferredSchema.infer, InferredSchema.nullableOf]
    | enum nb vals => right; simp [InferredSchema.infer, InferredSchema.nullableOf]
    | elements nb c => right; simp [InferredSchema.infer, InferredSchema.nullableOf]
    | any nb => right; simp [InferredSchema.infer, InferredSchema.nullableOf]

/-- Merging two values of different (non-null) outer shapes degrades to
`Any` whatever the order. -/
theorem infer_offdiag (t : InferredSchema) (v w : Json) (h : Hints)
    (hv : v ≠ .null) (hw : w ≠ .null) (hvw : jshape v ≠ jshape w) :
    (t.infer v h).infer w h = .any t.nullableOf := by
  rcases infer_shape_or_any t v h hv with hs | hs
  · have hc : conflict (t.infer v h) w = true := by
      apply conflict_true_of_shapes
      · rw [hs]; exact jshape_ne_zero v hv
      · rw [hs]; exact jshape_ne_six v
      · exact jshape_ne_zero w hw
      · rw [hs]; exact hvw
    rw [infer_conflict _ _ _ hc, nullableOf_infer t v h hv]
  · rw [hs, infer_any _ _ _ hw]

mutual

/-- Merging two examples into a well-formed tree commutes. -/
theorem infer_exchange (v w : Json) : ∀ (t : InferredSchema) (h : Hints), t.wf →
    (t.infer v h).infer w h = (t.infer w h).infer v h := by
  intro t h ht
  cases v with
  | null => exact exch_null_l t w h
  | bool bv =>
    cases w with
    | null => exact (exch_null_l t (.bool bv) h).symm
    | bool bw =>
      cases t <;> simp [InferredSchema.infer, InferredSchema.nullableOf]
    | num nw =>
      exact (infer_offdiag t _ _ h (by simp) (by simp) (by simp [jshape])).trans
        (infer_offdiag t _ _ h (by simp) (by simp) (by simp [jshape])).symm
    | str sw =>
      exact (infer_offdiag t _ _ h (by simp) (by simp) (by simp [jshape])).trans
        (infer_offdiag t _ _ h (by simp) (by simp) (by simp [jshape])).symm
    | arr xw =>
      exact (infer_offdiag t _ _ h (by simp) (by simp) (by simp [jshape])).trans
        (infer_offdiag t _ _ h (by simp) (by simp) (by simp [jshape])).symm
    | obj mw =>
      exact (infer_offdiag t _ _ h (by simp) (by simp) (by simp [jshape])).trans
        (infer_offdiag t _ _ h (by simp) (by simp) (by simp [jshape])).symm
  | num nv =>
    cases w with
    | null => exact (exch_null_l t (.num nv) h).symm
    | bool bw =>
      exact (infer_offdiag t _ _ h (by simp) (by simp) (by simp [jshape])).trans
        (infer_offdiag t _ _ h (by simp) (by simp) (by simp [jshape])).symm
    | num nw =>
      cases t with
      | unknown nb =>
        simp [InferredSchema.infer]
        exact join_comm _ _
      | number nb k =>
        simp [InferredSchema.infer]
        exact join_exch _ _ _
      | boolean nb => simp [InferredSchema.infer, InferredSchema.nullableOf]
      | string nb => simp [InferredSchema.infer, InferredSchema.nullableOf]
      | timestamp nb => simp [InferredSchema.infer, InferredSchema.nullableOf]
      | enum nb vals => simp [InferredSchema.infer, InferredSchema.nullableOf]
      | elements nb c => simp [InferredSchema.infer, InferredSchema.nullableOf]
      | properties nb m req => simp [InferredSchema.infer, InferredSchema.nullableOf]
      | values nb c => simp [InferredSchema.infer, InferredSchema.nullableOf]
      | discriminator nb tag m => simp [InferredSchema.infer, InferredSchema.nullableOf]
      | any nb => simp [InferredSchema.infer, InferredSchema.nullableOf]
    | str sw =>
      exact (infer_offdiag t _ _ h (by simp) (by simp) (by simp [jshape])).trans
        (infer_offdiag t _ _ h (by simp) (by simp) (by simp [jshape])).symm
    | arr xw =>
      exact (infer_offdiag t _ _ h (by simp) (by simp) (by simp [jshape])).trans
        (infer_offdiag t _ _ h (by simp) (by simp) (by simp [jshape])).symm
    | obj mw =>
      exact (infer_offdiag t _ _ h (by simp) (by simp) (by simp [jshape])).trans
        (infer_offdiag t _ _ h (by simp) (by simp) (by simp [jshape])).symm
  | str sv =>
    cases w with
    | null => exact (exch_null_l t (.str sv) h).symm
    | bool bw =>
      exact (infer_offdiag t _ _ h (by simp) (by simp) (by simp [jshape])).trans
        (infer_offdiag t _ _ h (by simp) (by simp) (by simp [jshape])).symm
    | num nw =>
      exact (infer_offdiag t _ _ h (by simp) (by simp) (by simp [jshape])).trans
        (infer_offdiag t _ _ h (by simp) (by simp) (by simp [jshape])).symm
    | str sw =>
      cases t with
      | unknown nb =>
        cases hA : h.enum_hints.isActive with
        | true =>
          have eenum : ∀ s2 : String, (InferredSchema.unknown nb).infer (.str s2) h
              = .enum nb [s2] := fun s2 => by simp [InferredSchema.infer, hA]
          have eins : ∀ (s2 : String) (vals : List String),
              (InferredSchema.enum nb vals).infer (.str s2) h
                = .enum nb (insortStr s2 vals) := fun s2 vals => by
            simp [InferredSchema.infer]
          have hcomm : insortStr sw [sv] = insortStr sv [sw] := by
            have h0 := insort_comm sw sv []
            simpa [insortStr] using h0
          rw [eenum, eenum, eins, eins, hcomm]
        | false =>
          have estr : ∀ s2 : String, (InferredSchema.unknown nb).infer (.str s2) h
              = if isTimestamp s2 = true then .timestamp nb else .string nb := by
            intro s2
            by_cases hts : isTimestamp s2 = true
            · simp [InferredSchema.infer, hA, hts]
            · simp [InferredSchema.infer, hA, hts]
          have ets : ∀ s2 : String, (InferredSchema.timestamp nb).infer (.str s2) h
              = if isTimestamp s2 = true then .timestamp nb else .string nb := by
            intro s2
            by_cases hts : isTimestamp s2 = true
            · simp [InferredSchema.infer, hts]
            · simp [InferredSchema.infer, hts]
          have est : ∀ s2 : String, (InferredSchema.string nb).infer (.str s2) h
              = .string nb := fun s2 => by simp [InferredSchema.infer]
          rw [estr, estr]
          by_cases hv : isTimestamp sv = true
          · rw [if_pos hv]
            by_cases hw : isTimestamp sw = true
            · rw [if_pos hw, ets, ets, if_pos hv, if_pos hw]
            · rw [if_neg hw, ets, est, if_neg hw]
          · rw [if_neg hv]
            by_cases hw : isTimestamp sw = true
            · rw [if_pos hw, ets, est, if_neg hv]
            · rw [if_neg hw, est, est]
      | timestamp nb =>
        have ets : ∀ s2 : String, (InferredSchema.timestamp nb).infer (.str s2) h
            = if isTimestamp s2 = true then .timestamp nb else .string nb := by
          intro s2
          by_cases hts : isTimestamp s2 = true
          · simp [InferredSchema.infer, hts]
          · simp [InferredSchema.infer, hts]
        have est : ∀ s2 : String, (InferredSchema.string nb).infer (.str s2) h
            = .string nb := fun s2 => by simp [InferredSchema.infer]
        rw [ets, ets]
        by_cases hv : isTimestamp sv = true
        · rw [if_pos hv]
          by_cases hw : isTimestamp sw = true
          · rw [if_pos hw, ets, ets, if_pos hv, if_pos hw]
          · rw [if_neg hw, ets, est, if_neg hw]
        · rw [if_neg hv]
          by_cases hw : isTimestamp sw = true
          · rw [if_pos hw, ets, est, if_neg hv]
          · rw [if_neg hw, est, est]
      | enum nb vals =>
        simp [InferredSchema.infer]
        exact insort_comm sw sv vals
      | string nb => simp [InferredSchema.infer]
      | boolean nb => simp [InferredSchema.infer, InferredSchema.nullableOf]
      | number nb k => simp [InferredSchema.infer, InferredSchema.nullableOf]
      | elements nb c => simp [InferredSchema.infer, InferredSchema.nullableOf]
      | properties nb m req => simp [InferredSchema.infer, InferredSchema.nullableOf]
      | values nb c => simp [InferredSchema.infer, InferredSchema.nullableOf]
      | discriminator nb tag m => simp [InferredSchema.infer, InferredSchema.nullableOf]
      | any nb => simp [InferredSchema.infer, InferredSchema.nullableOf]
    | arr xw =>
      exact (infer_offdiag t _ _ h (by simp) (by simp) (by simp [jshape])).trans
        (infer_offdiag t _ _ h (by simp) (by simp) (by simp [jshape])).symm
    | obj mw =>
      exact (infer_offdiag t _ _ h (by simp) (by simp) (by simp [jshape])).trans
        (infer_offdiag t _ _ h (by simp) (by simp) (by simp [jshape])).symm
  | arr xv =>
    cases w with
    | null => exact (exch_null_l t (.arr xv) h).symm
    | bool bw =>
      exact (infer_offdiag t _ _ h (by simp) (by simp) (by simp [jshape])).trans
        (infer_offdiag t _ _ h (by simp) (by simp) (by simp [jshape])).symm
    | num nw =>
      exact (infer_offdiag t _ _ h (by simp) (by simp) (by simp [jshape])).trans
        (infer_offdiag t _ _ h (by simp) (by simp) (by simp [jshape])).symm
    | str sw =>
      exact (infer_offdiag t _ _ h (by simp) (by simp) (by simp [jshape])).trans
        (infer_offdiag t _ _ h (by simp) (by simp) (by simp [jshape])).symm
    | arr xw =>
      cases t with
      | unknown nb =>
        simp [InferredSchema.infer]
        exact elems_exchange xv xw unknownS h (by simp [unknownS, InferredSchema.wf])
      | elements nb c =>
        rw [InferredSchema.wf] at ht
        simp [InferredSchema.infer]
        exact elems_exchange xv xw c h ht
      | boolean nb => simp [InferredSchema.infer, InferredSchema.nullableOf]
      | number nb k => simp [InferredSchema.infer, InferredSchema.nullableOf]
      | string nb => simp [InferredSchema.infer, InferredSchema.nullableOf]
      | timestamp nb => simp [InferredSchema.infer, InferredSchema.nullableOf]
      | enum nb vals => simp [InferredSchema.infer, InferredSchema.nullableOf]
      | properties nb m req => simp [InferredSchema.infer, InferredSchema.nullableOf]
      | values nb c => simp [InferredSchema.infer, InferredSchema.nullableOf]
      | discriminator nb tag m => simp [InferredSchema.infer, InferredSchema.nullableOf]
      | any nb => simp [InferredSchema.infer, InferredSchema.nullableOf]
    | obj mw =>
      exact (infer_offdiag t _ _ h (by simp) (by simp) (by simp [jshape])).trans
        (infer_offdiag t _ _ h (by simp) (by simp) (by simp [jshape])).symm
  | obj ms1 =>
    cases w with
    | null => exact (exch_null_l t (.obj ms1) h).symm
    | bool bw =>
      exact (infer_offdiag t _ _ h (by simp) (by simp) (by simp [jshape])).trans
        (infer_offdiag t _ _ h (by simp) (by simp) (by simp [jshape])).symm
    | num nw =>
      exact (infer_offdiag t _ _ h (by simp) (by simp) (by simp [jshape])).trans
        (infer_offdiag t _ _ h (by simp) (by simp) (by simp [jshape])).symm
    | str sw =>
      exact (infer_offdiag t _ _ h (by simp) (by simp) (by simp [jshape])).trans
        (infer_offdiag t _ _ h (by simp) (by simp) (by simp [jshape])).symm
    | arr xw =>
      exact (infer_offdiag t _ _ h (by simp) (by simp) (by simp [jshape])).trans
        (infer_offdiag t _ _ h (by simp) (by simp) (by simp [jshape])).symm
    | obj ms2 =>
      cases t with
      | unknown nb =>
        cases hpk : h.discriminator_hints.peekTag with
        | none =>
          cases hva : h.values_hints.isActive with
          | true =>
            have e1 : ∀ ms : JsonO, (InferredSchema.unknown nb).infer (.obj ms) h
                = .values nb (inferValuesFold unknownS ms h) := fun ms => by
              simp [InferredSchema.infer, hpk, hva]
            have e2 : ∀ (c : InferredSchema) (ms : JsonO),
                (InferredSchema.values nb c).infer (.obj ms) h
                  = .values nb (inferValuesFold c ms h) := fun c ms => by
              simp [InferredSchema.infer]
            rw [e1, e1, e2, e2]
            exact congrArg _ (vals_exchange ms1 ms2 unknownS h
              (by simp [unknownS, InferredSchema.wf]))
          | false =>
            have e1 : ∀ ms : JsonO, (InferredSchema.unknown nb).infer (.obj ms) h
                = .properties nb (inferMembers none IMap.nil ms h)
                    (sortedKeysExcept none ms) := fun ms => by
              simp [InferredSchema.infer, hpk, hva]
            have e2 : ∀ (m : IMap) (req : List String) (ms : JsonO),
                (InferredSchema.properties nb m req).infer (.obj ms) h
                  = .properties nb (inferMembers none m ms h)
                      (req.filter (fun k => ms.hasKey k)) := fun m req ms => by
              simp [InferredSchema.infer]
            rw [e1, e1, e2, e2]
            rw [members_exchange ms1 ms2 none IMap.nil h (by rw [IMap.wfm]; trivial)]
            rw [sortedKeysExcept_filter_comm none ms1 ms2]
        | some tag =>
          cases hfs1 : JsonO.findStr? tag ms1 with
          | none =>
            rw [infer_unknown_obj_disc_none nb tag ms1 h hpk hfs1]
            cases hfs2 : JsonO.findStr? tag ms2 with
            | none =>
              rw [infer_unknown_obj_disc_none nb tag ms2 h hpk hfs2,
                infer_any nb _ h (by simp), infer_any nb _ h (by simp)]
            | some d2 =>
              rw [infer_unknown_obj_disc_some nb tag ms2 h d2 hpk hfs2,
                infer_any nb _ h (by simp), infer_disc_obj_none _ _ _ _ _ hfs1]
          | some d1 =>
            rw [infer_unknown_obj_disc_some nb tag ms1 h d1 hpk hfs1]
            cases hfs2 : JsonO.findStr? tag ms2 with
            | none =>
              rw [infer_unknown_obj_disc_none nb tag ms2 h hpk hfs2,
                infer_any nb _ h (by simp), infer_disc_obj_none _ _ _ _ _ hfs2]
            | some d2 =>
              rw [infer_unknown_obj_disc_some nb tag ms2 h d2 hpk hfs2,
                infer_disc_obj_some nb tag _ ms2 h d2 hfs2,
                infer_disc_obj_some nb tag _ ms1 h d1 hfs1]
              by_cases hd : d1 = d2
              · subst hd
                rw [IMap.find?_insertAt_self, IMap.find?_insertAt_self]
                simp only [Option.getD_some, IMap.insertAt_insertAt_self]
                have hin : ∀ ms : JsonO, vstep h tag ms (freshVariant tag ms)
                    = .properties false (inferMembers (some tag) IMap.nil ms h)
                        (sortedKeysExcept (some tag) ms) := fun ms => by
                  rw [freshVariant, vstep, sortedKeysExcept_filter_self]
                have hx : vstep h tag ms2 (vstep h tag ms1 (freshVariant tag ms1))
                    = vstep h tag ms1 (vstep h tag ms2 (freshVariant tag ms2)) := by
                  rw [hin, hin, vstep, vstep]
                  rw [members_exchange ms1 ms2 (some tag) IMap.nil h
                    (by rw [IMap.wfm]; trivial)]
                  rw [sortedKeysExcept_filter_comm (some tag) ms1 ms2]
                rw [hx]
              · rw [IMap.find?_insertAt_ne d1 d2 _ (Ne.symm hd),
                  IMap.find?_insertAt_ne d2 d1 _ hd]
                simp only [IMap.find?, Option.getD]
                rw [IMap.insertAt_comm d1 d2 _ _ hd]
      | properties nb m req =>
        rw [InferredSchema.wf] at ht
        have e2 : ∀ (m' : IMap) (req' : List String) (ms : JsonO),
            (InferredSchema.properties nb m' req').infer (.obj ms) h
              = .properties nb (inferMembers none m' ms h)
                  (req'.filter (fun k => ms.hasKey k)) := fun m' req' ms => by
          simp [InferredSchema.infer]
        rw [e2, e2, e2, e2]
        rw [members_exchange ms1 ms2 none m h ht.1]
        rw [List.filter_comm]
      | values nb c =>
        rw [InferredSchema.wf] at ht
        have e2 : ∀ (c' : InferredSchema) (ms : JsonO),
            (InferredSchema.values nb c').infer (.obj ms) h
              = .values nb (inferValuesFold c' ms h) := fun c' ms => by
          simp [InferredSchema.infer]
        rw [e2, e2, e2, e2]
        exact congrArg _ (vals_exchange ms1 ms2 c h ht)
      | discriminator nb tag m =>
        rw [InferredSchema.wf] at ht
        cases hfs1 : JsonO.findStr? tag ms1 with
        | none =>
          rw [infer_disc_obj_none nb tag m ms1 h hfs1]
          cases hfs2 : JsonO.findStr? tag ms2 with
          | none =>
            rw [infer_disc_obj_none nb tag m ms2 h hfs2,
              infer_any nb _ h (by simp), infer_any nb _ h (by simp)]
          | some d2 =>
            rw [infer_disc_obj_some nb tag m ms2 h d2 hfs2,
              infer_any nb _ h (by simp), infer_disc_obj_none _ _ _ _ _ hfs1]
        | some d1 =>
          rw [infer_disc_obj_some nb tag m ms1 h d1 hfs1]
          cases hfs2 : JsonO.findStr? tag ms2 with
          | none =>
            rw [infer_disc_obj_none nb tag m ms2 h hfs2,
              infer_any nb _ h (by simp), infer_disc_obj_none _ _ _ _ _ hfs2]
          | some d2 =>
            rw [infer_disc_obj_some nb tag m ms2 h d2 hfs2,
              infer_disc_obj_some nb tag _ ms2 h d2 hfs2,
              infer_disc_obj_some nb tag _ ms1 h d1 hfs1]
            by_cases hd : d1 = d2
            · subst hd
              rw [IMap.find?_insertAt_self, IMap.find?_insertAt_self]
              simp only [Option.getD_some, IMap.insertAt_insertAt_self]
              have hin : ∀ ms : JsonO, vstep h tag ms (freshVariant tag ms)
                  = .properties false (inferMembers (some tag) IMap.nil ms h)
                      (sortedKeysExcept (some tag) ms) := fun ms => by
                rw [freshVariant, vstep, sortedKeysExcept_filter_self]
              have hx : vstep h tag ms2 (vstep h tag ms1
                    ((m.find? d1).getD (freshVariant tag ms1)))
                  = vstep h tag ms1 (vstep h tag ms2
                    ((m.find? d1).getD (freshVariant tag ms2))) := by
                cases hf : m.find? d1 with
                | some s0 =>
                  simp only [Option.getD_some]
                  exact variant_exchange ms1 ms2 s0 tag h (find?_wf d1 m ht s0 hf)
                | none =>
                  simp only [Option.getD_none]
                  rw [hin, hin, vstep, vstep]
                  rw [members_exchange ms1 ms2 (some tag) IMap.nil h
                    (by rw [IMap.wfm]; trivial)]
                  rw [sortedKeysExcept_filter_comm (some tag) ms1 ms2]
              rw [hx]
            · rw [IMap.find?_insertAt_ne d1 d2 _ (Ne.symm hd),
                IMap.find?_insertAt_ne d2 d1 _ hd]
              rw [IMap.insertAt_comm d1 d2 _ _ hd]
      | boolean nb => simp [InferredSchema.infer, InferredSchema.nullableOf]
      | number nb k => simp [InferredSchema.infer, InferredSchema.nullableOf]
      | string nb => simp [InferredSchema.infer, InferredSchema.nullableOf]
      | timestamp nb => simp [InferredSchema.infer, InferredSchema.nullableOf]
      | enum nb vals => simp [InferredSchema.infer, InferredSchema.nullableOf]
      | elements nb c => simp [InferredSchema.infer, InferredSchema.nullableOf]
      | any nb => simp [InferredSchema.infer, InferredSchema.nullableOf]
termination_by (sizeOf v + sizeOf w, 0)

/-- Two member-merge steps commute. -/
theorem step_exchange (v1 v2 : Json) : ∀ (m : IMap) (k1 k2 : String) (h : Hints),
    m.wfm → stepM h k1 v1 (stepM h k2 v2 m) = stepM h k2 v2 (stepM h k1 v1 m) := by
  intro m k1 k2 h hm
  by_cases hk : k1 = k2
  · subst hk
    rw [stepM, stepM, stepM, stepM]
    rw [IMap.find?_insertAt_self, IMap.find?_insertAt_self]
    simp only [Option.getD_some, IMap.insertAt_insertAt_self]
    rw [infer_exchange v1 v2 ((m.find? k1).getD unknownS) (h.sub k1)
      (getD_find_wf m k1 hm)]
  · rw [stepM, stepM, stepM, stepM]
    rw [IMap.find?_insertAt_ne k2 k1 _ hk, IMap.find?_insertAt_ne k1 k2 _ (Ne.symm hk)]
    rw [IMap.insertAt_comm k1 k2 _ _ hk]
termination_by (sizeOf v1 + sizeOf v2, 1)

/-- A member-merge step moves across a member fold. -/
theorem step_fold (val : Json) (ms : JsonO) : ∀ (m : IMap) (k : String)
    (skip : Option String) (h : Hints), m.wfm →
    inferMembers skip (stepM h k val m) ms h = stepM h k val (inferMembers skip m ms h) := by
  intro m k skip h hm
  cases ms with
  | nil => simp [inferMembers]
  | cons k2 v2 tl2 =>
    rw [inferMembers_cons, inferMembers_cons]
    by_cases hskip : skip = some k2
    · simp only [hskip, if_true]
      exact step_fold val tl2 m k (some k2) h hm
    · simp only [hskip, if_false]
      rw [step_exchange v2 val m k2 k h hm]
      exact step_fold val tl2 (stepM h k2 v2 m) k skip h (stepM_wfm h k2 v2 m hm)
termination_by (sizeOf val + sizeOf ms, 2)

/-- Member folds of two objects commute. -/
theorem members_exchange (ms1 ms2 : JsonO) : ∀ (skip : Option String) (m : IMap)
    (h : Hints), m.wfm →
    inferMembers skip (inferMembers skip m ms1 h) ms2 h
      = inferMembers skip (inferMembers skip m ms2 h) ms1 h := by
  intro skip m h hm
  cases ms1 with
  | nil => simp [inferMembers]
  | cons k val tl =>
    rw [inferMembers_cons, inferMembers_cons]
    by_cases hskip : skip = some k
    · simp only [hskip, if_true]
      exact members_exchange tl ms2 (some k) m h hm
    · simp only [hskip, if_false]
      rw [members_exchange tl ms2 skip (stepM h k val m) h (stepM_wfm h k val m hm)]
      rw [step_fold val ms2 m k skip h hm]
termination_by (sizeOf ms1 + sizeOf ms2, 3)

/-- Discriminator-entry steps of two objects commute. -/
theorem variant_exchange (ms1 ms2 : JsonO) : ∀ (sub : InferredSchema) (tag : String)
    (h : Hints), sub.wf →
    vstep h tag ms2 (vstep h tag ms1 sub) = vstep h tag ms1 (vstep h tag ms2 sub) := by
  intro sub tag h hsub
  cases sub with
  | properties nb2 m2 req2 =>
    rw [InferredSchema.wf] at hsub
    simp only [vstep]
    rw [members_exchange ms1 ms2 (some tag) m2 h hsub.1]
    rw [List.filter_comm]
  | unknown nb => rfl
  | boolean nb => rfl
  | number nb k => rfl
  | string nb => rfl
  | timestamp nb => rfl
  | enum nb vals => rfl
  | elements nb c => rfl
  | values nb c => rfl
  | discriminator nb tag2 m2 => rfl
  | any nb => rfl
termination_by (sizeOf ms1 + sizeOf ms2, 4)

/-- One element-merge moves across an element fold. -/
theorem elems_move (x : Json) (xs : JsonL) : ∀ (c : InferredSchema) (h : Hints),
    c.wf → inferElems (c.infer x h) xs h = (inferElems c xs h).infer x h := by
  intro c h hc
  cases xs with
  | nil => simp [inferElems]
  | cons y tl =>
    simp only [inferElems]
    rw [infer_exchange x y c h hc]
    exact elems_move x tl (c.infer y h) h (infer_wf y c h hc)
termination_by (sizeOf x + sizeOf xs, 1)

/-- Element folds of two arrays commute. -/
theorem elems_exchange (xs ys : JsonL) : ∀ (c : InferredSchema) (h : Hints),
    c.wf → inferElems (inferElems c xs h) ys h = inferElems (inferElems c ys h) xs h := by
  intro c h hc
  cases xs with
  | nil => simp [inferElems]
  | cons x tl =>
    simp only [inferElems]
    rw [elems_exchange tl ys (c.infer x h) h (infer_wf x c h hc)]
    rw [elems_move x ys c h hc]
termination_by (sizeOf xs + sizeOf ys, 2)

/-- One member-value merge moves across a values fold. -/
theorem vals_move (val : Json) (ms : JsonO) : ∀ (c : InferredSchema) (h : Hints),
    c.wf → inferValuesFold (c.infer val h) ms h = (inferValuesFold c ms h).infer val h := by
  intro c h hc
  cases ms with
  | nil => simp [inferValuesFold]
  | cons k v2 tl =>
    simp only [inferValuesFold]
    rw [infer_exchange val v2 c h hc]
    exact vals_move val tl (c.infer v2 h) h (infer_wf v2 c h hc)
termination_by (sizeOf val + sizeOf ms, 1)

/-- Values folds of two objects commute. -/
theorem vals_exchange (ms1 ms2 : JsonO) : ∀ (c : InferredSchema) (h : Hints),
    c.wf → inferValuesFold (inferValuesFold c ms1 h) ms2 h
      = inferValuesFold (inferValuesFold c ms2 h) ms1 h := by
  intro c h hc
  cases ms1 with
  | nil => simp [inferValuesFold]
  | cons k val tl =>
    simp only [inferValuesFold]
    rw [vals_exchange tl ms2 (c.infer val h) h (infer_wf val c h hc)]
    rw [vals_move val ms2 c h hc]
termination_by (sizeOf ms1 + sizeOf ms2, 2)

end

/-! ## Claim C2: commutativity -/

theorem foldl_inferrer (l : List Json) : ∀ i : Inferrer,
    (l.foldl Inferrer.infer i).inference
      = l.foldl (fun t v => t.infer v i.hints) i.inference := by
  induction l with
  | nil => intro i; rfl
  | cons x xs ih =>
    intro i
    simp only [List.foldl_cons]
    exact ih { inference := i.inference.infer x i.hints, hints := i.hints }

theorem foldl_infer_perm (h : Hints) {l1 l2 : List Json} (hp : l1.Perm l2) :
    ∀ t : InferredSchema, t.wf →
      l1.foldl (fun s v => s.infer v h) t = l2.foldl (fun s v => s.infer v h) t := by
  induction hp with
  | nil => intro t ht; rfl
  | cons x hp ih =>
    intro t ht
    simp only [List.foldl_cons]
    exact ih (t.infer x h) (infer_wf x t h ht)
  | swap x y l =>
    intro t ht
    simp only [List.foldl_cons]
    rw [infer_exchange y x t h ht]
  | trans hp1 hp2 ih1 ih2 =>
    intro t ht
    exact (ih1 t ht).trans (ih2 t ht)

/-- C2: for any two JSON values and any fixed hint configuration, folding
`a` then `b` into a fresh `Inferrer` emits the same schema as folding `b`
then `a`; more generally, the final tree after folding any sequence is
invariant under permutation of the examples. -/
theorem c2_commutativity :
    (∀ (h : Hints) (a b : Json),
      (((Inferrer.new h).infer a).infer b).into_schema
        = (((Inferrer.new h).infer b).infer a).into_schema)
    ∧ (∀ (h : Hints) (l1 l2 : List Json), l1.Perm l2 →
      (l1.foldl Inferrer.infer (Inferrer.new h)).inference
        = (l2.foldl Inferrer.infer (Inferrer.new h)).inference) := by
  constructor
  · intro h a b
    exact congrArg InferredSchema.into_schema
      (infer_exchange a b (.unknown false) h (by simp [InferredSchema.wf]))
  · intro h l1 l2 hp
    rw [foldl_inferrer, foldl_inferrer]
    exact foldl_infer_perm h hp (.unknown false) (by simp [InferredSchema.wf])

/-- Witness for C2: the two-example sequences `[true, 1]` and `[1, true]`
are permutations and fold to the same tree. -/
theorem c2_commutativity_witness :
    ([Json.bool true, Json.num (.int 1)]).Perm [Json.num (.int 1), Json.bool true]
    ∧ (([Json.bool true, Json.num (.int 1)].foldl Inferrer.infer
          (Inferrer.new hintsUint8)).inference
        = ([Json.num (.int 1), Json.bool true].foldl Inferrer.infer
          (Inferrer.new hintsUint8)).inference) :=
  ⟨List.Perm.swap (Json.num (.int 1)) (Json.bool true) [],
    c2_commutativity.2 hintsUint8 _ _
      (List.Perm.swap (Json.num (.int 1)) (Json.bool true) [])⟩

/-- Witness for C7: with one prior example `{a: true, b: 1}`, the example
`{b: 2}` demotes `a`, and `a` stays optional although the later example
`{a: false, b: 3}` contains it. -/
theorem c7_optionality_monotone_witness :
    "a" ∉ requiredOf
        ([Json.obj (.cons "a" (.bool false) (.cons "b" (.num (.int 3)) .nil))].foldl
          (fun s x => s.infer x hintsUint8)
          ((InferredSchema.properties false
              (.cons "a" (.boolean false) (.cons "b" (.number false .uint8) .nil))
              ["a", "b"]).infer
            (.obj (.cons "b" (.num (.int 2)) .nil)) hintsUint8)) :=
  (c7_optionality_monotone.2 false
    (.cons "a" (.boolean false) (.cons "b" (.number false .uint8) .nil))
    ["a", "b"] (.cons "b" (.num (.int 2)) .nil) hintsUint8 "a"
    [Json.obj (.cons "a" (.bool false) (.cons "b" (.num (.int 3)) .nil))]
    (by decide)).1

/-! ## Claim C1: soundness of inference

Three stages: coverage (`fits`) is established by merge for the value just
folded in (progress), kept by every later merge (preservation), and implies
acceptance by the emitted schema on well-formed trees (adequacy). -/

theorem fits_null (t : InferredSchema) : fits t .null = t.nullableOf := by
  cases t <;> simp [fits]

theorem setNullable_nullableOf (t : InferredSchema) :
    t.setNullable.nullableOf = true := by
  cases t <;> simp [InferredSchema.setNullable, InferredSchema.nullableOf]

theorem fits_setNullable_of (t : InferredSchema) (x : Json) (hx : x ≠ .null) :
    fits t.setNullable x = fits t x := by
  cases t <;> cases x <;>
    first
      | exact absurd rfl hx
      | simp [fits, InferredSchema.setNullable]

theorem fits_setNullable_null (t : InferredSchema) :
    fits t.setNullable .null = true := by
  rw [fits_null]
  exact setNullable_nullableOf t

theorem fits_setNullable (t : InferredSchema) (x : Json)
    (hf : fits t x = true) : fits t.setNullable x = true := by
  by_cases hx : x = Json.null
  · subst hx
    exact fits_setNullable_null t
  · rw [fits_setNullable_of t x hx]
    exact hf

theorem nullable_infer_mono (t : InferredSchema) (v : Json) (h : Hints)
    (hn : t.nullableOf = true) : (t.infer v h).nullableOf = true := by
  by_cases hv : v = Json.null
  · subst hv
    rw [InferredSchema.infer.eq_1]
    exact setNullable_nullableOf t
  · rw [nullableOf_infer t v h hv]
    exact hn

theorem fits_any_of (nb : Bool) (x : Json) (hx : x ≠ .null) :
    fits (.any nb) x = true := by
  cases x <;> simp_all [fits]

theorem fitsIn_eq (k : String) (x : Json) :
    ∀ m : IMap, fitsIn m k x = (m.find? k).map (fun c => fits c x)
  | .nil => by simp [fitsIn, IMap.find?]
  | .cons k2 c tl => by
    by_cases hk : k = k2
    · simp [fitsIn, IMap.find?, hk]
    · simp [fitsIn, IMap.find?, hk, fitsIn_eq k x tl]

theorem fitsIn_some_true (m : IMap) (k : String) (x : Json) :
    fitsIn m k x = some true ↔ ∃ c, m.find? k = some c ∧ fits c x = true := by
  rw [fitsIn_eq]
  cases m.find? k <;> simp

theorem fitsAll_mono (c c' : InferredSchema)
    (hp : ∀ x, fits c x = true → fits c' x = true) :
    ∀ xs : JsonL, fitsAll c xs = true → fitsAll c' xs = true
  | .nil => by simp [fitsAll]
  | .cons x tl => by
    intro hf
    simp only [fitsAll, Bool.and_eq_true] at hf ⊢
    exact ⟨hp x hf.1, fitsAll_mono c c' hp tl hf.2⟩

theorem fitsVals_mono (c c' : InferredSchema)
    (hp : ∀ x, fits c x = true → fits c' x = true) :
    ∀ ms : JsonO, fitsVals c ms = true → fitsVals c' ms = true
  | .nil => by simp [fitsVals]
  | .cons k x tl => by
    intro hf
    simp only [fitsVals, Bool.and_eq_true] at hf ⊢
    exact ⟨hp x hf.1, fitsVals_mono c c' hp tl hf.2⟩

theorem fitsMembers_mono (m m' : IMap) (ex : Option String)
    (hp : ∀ k x, fitsIn m k x = some true → fitsIn m' k x = some true) :
    ∀ ms : JsonO, fitsMembers m ex ms = true → fitsMembers m' ex ms = true
  | .nil => by simp [fitsMembers]
  | .cons k x tl => by
    intro hf
    simp only [fitsMembers, Bool.and_eq_true] at hf ⊢
    refine ⟨?_, fitsMembers_mono m m' ex hp tl hf.2⟩
    have h1 := hf.1
    by_cases hex : ex = some k
    · rw [if_pos hex]
    · rw [if_neg hex] at h1 ⊢
      cases hin : fitsIn m k x with
      | none => rw [hin] at h1; exact absurd h1 (by simp)
      | some b =>
        rw [hin] at h1
        cases b with
        | false => exact absurd h1 (by simp)
        | true => rw [hp k x hin]

theorem filter_all (p q : String → Bool) (l : List String)
    (h : l.all q = true) : (l.filter p).all q = true := by
  rw [List.all_eq_true] at h ⊢
  exact fun a ha => h a (List.mem_filter.mp ha).1

theorem filter_all_self (p : String → Bool) (l : List String) :
    (l.filter p).all p = true := by
  rw [List.all_eq_true]
  exact fun a ha => (List.mem_filter.mp ha).2

/-- The body a discriminator variant is checked against once its entry is
found (the match arm of `fitsVariantFind`). -/
def vfits (sub : InferredSchema) (tag : String) (ms : JsonO) : Bool :=
  match sub with
  | .properties _ m2 req2 =>
    req2.all (fun k2 => ms.hasKey k2) && fitsMembers m2 (some tag) ms
  | .any _ => true
  | _ => false

theorem fitsVariantFind_eq (d tag : String) (ms : JsonO) :
    ∀ m : IMap, fitsVariantFind m d tag ms
      = match m.find? d with
        | some sub => vfits sub tag ms
        | none => false
  | .nil => by simp [fitsVariantFind, IMap.find?]
  | .cons k sub tl => by
    by_cases hk : d = k
    · subst hk
      cases sub <;> simp [fitsVariantFind, IMap.find?, vfits]
    · cases sub <;>
        simp [fitsVariantFind, IMap.find?, hk, fitsVariantFind_eq d tag ms tl]

mutual
/-- Preservation: a tree that covers `x` still covers `x` after any later
example `v` is folded in. -/
theorem fits_infer_pres (v : Json) : ∀ (t : InferredSchema) (x : Json)
    (h : Hints), fits t x = true → fits (t.infer v h) x = true := by
  intro t x h hf
  by_cases hx : x = Json.null
  · subst hx
    rw [fits_null] at hf ⊢
    exact nullable_infer_mono t v h hf
  · have hAny : ∀ nb : Bool, fits (.any nb) x = true := fun nb => fits_any_of nb x hx
    cases v with
    | null =>
      rw [InferredSchema.infer.eq_1]
      rw [fits_setNullable_of t x hx]
      exact hf
    | bool b =>
      cases t with
      | unknown nb => cases x <;> simp_all [fits]
      | boolean nb => simp only [InferredSchema.infer]; exact hf
      | any nb => simp only [InferredSchema.infer]; exact hf
      | number nb k =>
        simp only [InferredSchema.infer, InferredSchema.nullableOf]; exact hAny nb
      | string nb =>
        simp only [InferredSchema.infer, InferredSchema.nullableOf]; exact hAny nb
      | timestamp nb =>
        simp only [InferredSchema.infer, InferredSchema.nullableOf]; exact hAny nb
      | enum nb vals =>
        simp only [InferredSchema.infer, InferredSchema.nullableOf]; exact hAny nb
      | elements nb c =>
        simp only [InferredSchema.infer, InferredSchema.nullableOf]; exact hAny nb
      | properties nb m req =>
        simp only [InferredSchema.infer, InferredSchema.nullableOf]; exact hAny nb
      | values nb c =>
        simp only [InferredSchema.infer, InferredSchema.nullableOf]; exact hAny nb
      | discriminator nb tag m =>
        simp only [InferredSchema.infer, InferredSchema.nullableOf]; exact hAny nb
    | num n =>
      cases t with
      | unknown nb => cases x <;> simp_all [fits]
      | any nb => simp only [InferredSchema.infer]; exact hf
      | number nb k =>
        simp only [InferredSchema.infer]
        cases x with
        | num n0 =>
          simp only [fits] at hf ⊢
          exact le_accepts _ _ n0 (join_ub_l k _) hf
        | null => exact absurd rfl hx
        | bool b2 => simp [fits] at hf
        | str s2 => simp [fits] at hf
        | arr xs2 => simp [fits] at hf
        | obj ms2 => simp [fits] at hf
      | boolean nb =>
        simp only [InferredSchema.infer, InferredSchema.nullableOf]; exact hAny nb
      | string nb =>
        simp only [InferredSchema.infer, InferredSchema.nullableOf]; exact hAny nb
      | timestamp nb =>
        simp only [InferredSchema.infer, InferredSchema.nullableOf]; exact hAny nb
      | enum nb vals =>
        simp only [InferredSchema.infer, InferredSchema.nullableOf]; exact hAny nb
      | elements nb c =>
        simp only [InferredSchema.infer, InferredSchema.nullableOf]; exact hAny nb
      | properties nb m req =>
        simp only [InferredSchema.infer, InferredSchema.nullableOf]; exact hAny nb
      | values nb c =>
        simp only [InferredSchema.infer, InferredSchema.nullableOf]; exact hAny nb
      | discriminator nb tag m =>
        simp only [InferredSchema.infer, InferredSchema.nullableOf]; exact hAny nb
    | str s =>
      cases t with
      | unknown nb => cases x <;> simp_all [fits]
      | any nb => simp only [InferredSchema.infer]; exact hf
      | string nb => simp only [InferredSchema.infer]; exact hf
      | timestamp nb =>
        by_cases hts : isTimestamp s = true
        · have he : (InferredSchema.timestamp nb).infer (.str s) h = .timestamp nb := by
            simp [InferredSchema.infer, hts]
          rw [he]
          exact hf
        · have he : (InferredSchema.timestamp nb).infer (.str s) h = .string nb := by
            simp [InferredSchema.infer, hts]
          rw [he]
          cases x with
          | str s0 => simp [fits]
          | null => exact absurd rfl hx
          | bool b2 => simp [fits] at hf
          | num n2 => simp [fits] at hf
          | arr xs2 => simp [fits] at hf
          | obj ms2 => simp [fits] at hf
      | enum nb vals =>
        simp only [InferredSchema.infer]
        cases x with
        | str s0 =>
          simp only [fits, decide_eq_true_eq] at hf ⊢
          exact (insort_mem s s0 vals).mpr (Or.inr hf)
        | null => exact absurd rfl hx
        | bool b2 => simp [fits] at hf
        | num n2 => simp [fits] at hf
        | arr xs2 => simp [fits] at hf
        | obj ms2 => simp [fits] at hf
      | boolean nb =>
        simp only [InferredSchema.infer, InferredSchema.nullableOf]; exact hAny nb
      | number nb k =>
        simp only [InferredSchema.infer, InferredSchema.nullableOf]; exact hAny nb
      | elements nb c =>
        simp only [InferredSchema.infer, InferredSchema.nullableOf]; exact hAny nb
      | properties nb m req =>
        simp only [InferredSchema.infer, InferredSchema.nullableOf]; exact hAny nb
      | values nb c =>
        simp only [InferredSchema.infer, InferredSchema.nullableOf]; exact hAny nb
      | discriminator nb tag m =>
        simp only [InferredSchema.infer, InferredSchema.nullableOf]; exact hAny nb
    | arr ys =>
      cases t with
      | unknown nb => cases x <;> simp_all [fits]
      | any nb => simp only [InferredSchema.infer]; exact hf
      | elements nb c =>
        simp only [InferredSchema.infer]
        cases x with
        | arr xs =>
          simp only [fits] at hf ⊢
          exact fitsAll_mono c _ (fits_elems_pres ys c h) xs hf
        | null => exact absurd rfl hx
        | bool b2 => simp [fits] at hf
        | num n2 => simp [fits] at hf
        | str s2 => simp [fits] at hf
        | obj ms2 => simp [fits] at hf
      | boolean nb =>
        simp only [InferredSchema.infer, InferredSchema.nullableOf]; exact hAny nb
      | number nb k =>
        simp only [InferredSchema.infer, InferredSchema.nullableOf]; exact hAny nb
      | string nb =>
        simp only [InferredSchema.infer, InferredSchema.nullableOf]; exact hAny nb
      | timestamp nb =>
        simp only [InferredSchema.infer, InferredSchema.nullableOf]; exact hAny nb
      | enum nb vals =>
        simp only [InferredSchema.infer, InferredSchema.nullableOf]; exact hAny nb
      | properties nb m req =>
        simp only [InferredSchema.infer, InferredSchema.nullableOf]; exact hAny nb
      | values nb c =>
        simp only [InferredSchema.infer, InferredSchema.nullableOf]; exact hAny nb
      | discriminator nb tag m =>
        simp only [InferredSchema.infer, InferredSchema.nullableOf]; exact hAny nb
    | obj msv =>
      cases t with
      | unknown nb => cases x <;> simp_all [fits]
      | any nb => simp only [InferredSchema.infer]; exact hf
      | properties nb m req =>
        simp only [InferredSchema.infer]
        cases x with
        | obj msx =>
          simp only [fits, Bool.and_eq_true] at hf ⊢
          refine ⟨filter_all _ _ req hf.1, ?_⟩
          exact fitsMembers_mono m _ none (fits_members_pres msv none m h) msx hf.2
        | null => exact absurd rfl hx
        | bool b2 => simp [fits] at hf
        | num n2 => simp [fits] at hf
        | str s2 => simp [fits] at hf
        | arr xs2 => simp [fits] at hf
      | values nb c =>
        simp only [InferredSchema.infer]
        cases x with
        | obj msx =>
          simp only [fits] at hf ⊢
          exact fitsVals_mono c _ (fits_vals_pres msv c h) msx hf
        | null => exact absurd rfl hx
        | bool b2 => simp [fits] at hf
        | num n2 => simp [fits] at hf
        | str s2 => simp [fits] at hf
        | arr xs2 => simp [fits] at hf
      | discriminator nb tag m =>
        cases hfs : JsonO.findStr? tag msv with
        | none =>
          rw [infer_disc_obj_none nb tag m msv h hfs]
          exact hAny nb
        | some dv =>
          rw [infer_disc_obj_some nb tag m msv h dv hfs]
          cases x with
          | obj msx =>
            simp only [fits] at hf ⊢
            cases hfsx : JsonO.findStr? tag msx with
            | none => rw [hfsx] at hf; exact absurd hf (by simp)
            | some dx =>
              rw [hfsx] at hf
              have hf2 : fitsVariantFind m dx tag msx = true := hf
              rw [fitsVariantFind_eq] at hf2
              show fitsVariantFind
                  (m.insertAt dv
                    (vstep h tag msv ((m.find? dv).getD (freshVariant tag msv))))
                  dx tag msx = true
              rw [fitsVariantFind_eq]
              cases hfd : m.find? dx with
              | none => rw [hfd] at hf2; exact absurd hf2 (by simp)
              | some sub =>
                rw [hfd] at hf2
                have hf : vfits sub tag msx = true := hf2
                by_cases hdd : dx = dv
                · subst hdd
                  rw [IMap.find?_insertAt_self, hfd, Option.getD_some]
                  have hstep : vfits (vstep h tag msv sub) tag msx = true := by
                    cases sub with
                    | properties nb2 m2 req2 =>
                      simp only [vstep, vfits, Bool.and_eq_true] at hf ⊢
                      exact ⟨filter_all _ _ req2 hf.1,
                        fitsMembers_mono m2 _ (some tag)
                          (fits_members_pres msv (some tag) m2 h) msx hf.2⟩
                    | any nb2 => simp [vstep, vfits, InferredSchema.nullableOf]
                    | unknown nb2 => simp [vfits] at hf
                    | boolean nb2 => simp [vfits] at hf
                    | number nb2 k2 => simp [vfits] at hf
                    | string nb2 => simp [vfits] at hf
                    | timestamp nb2 => simp [vfits] at hf
                    | enum nb2 vals2 => simp [vfits] at hf
                    | elements nb2 c2 => simp [vfits] at hf
                    | values nb2 c2 => simp [vfits] at hf
                    | discriminator nb2 t2 m2 => simp [vfits] at hf
                  exact hstep
                · rw [IMap.find?_insertAt_ne dv dx _ hdd, hfd]
                  exact hf
          | null => exact absurd rfl hx
          | bool b2 => simp [fits] at hf
          | num n2 => simp [fits] at hf
          | str s2 => simp [fits] at hf
          | arr xs2 => simp [fits] at hf
      | boolean nb =>
        simp only [InferredSchema.infer, InferredSchema.nullableOf]; exact hAny nb
      | number nb k =>
        simp only [InferredSchema.infer, InferredSchema.nullableOf]; exact hAny nb
      | string nb =>
        simp only [InferredSchema.infer, InferredSchema.nullableOf]; exact hAny nb
      | timestamp nb =>
        simp only [InferredSchema.infer, InferredSchema.nullableOf]; exact hAny nb
      | enum nb vals =>
        simp only [InferredSchema.infer, InferredSchema.nullableOf]; exact hAny nb
      | elements nb c =>
        simp only [InferredSchema.infer, InferredSchema.nullableOf]; exact hAny nb
termination_by sizeOf v

theorem fits_elems_pres (ys : JsonL) : ∀ (c : InferredSchema) (h : Hints)
    (x : Json), fits c x = true → fits (inferElems c ys h) x = true := by
  intro c h x hf
  cases ys with
  | nil => simpa [inferElems] using hf
  | cons y tl =>
    simp only [inferElems]
    exact fits_elems_pres tl (c.infer y h) h x (fits_infer_pres y c x h hf)
termination_by sizeOf ys

theorem fits_vals_pres (ms : JsonO) : ∀ (c : InferredSchema) (h : Hints)
    (x : Json), fits c x = true → fits (inferValuesFold c ms h) x = true := by
  intro c h x hf
  cases ms with
  | nil => simpa [inferValuesFold] using hf
  | cons k val tl =>
    simp only [inferValuesFold]
    exact fits_vals_pres tl (c.infer val h) h x (fits_infer_pres val c x h hf)
termination_by sizeOf ms

theorem fits_members_pres (msv : JsonO) : ∀ (skip : Option String) (m : IMap)
    (h : Hints) (k : String) (x : Json), fitsIn m k x = some true →
    fitsIn (inferMembers skip m msv h) k x = some true := by
  intro skip m h k x hf
  cases msv with
  | nil => simpa [inferMembers] using hf
  | cons k2 v2 tl =>
    rw [inferMembers_cons]
    by_cases hskip : skip = some k2
    · rw [if_pos hskip]
      exact fits_members_pres tl skip m h k x hf
    · rw [if_neg hskip]
      refine fits_members_pres tl skip (stepM h k2 v2 m) h k x ?_
      rw [fitsIn_eq] at hf ⊢
      by_cases hk : k = k2
      · subst hk
        rw [stepM, IMap.find?_insertAt_self]
        cases hfind : m.find? k with
        | none => rw [hfind] at hf; exact absurd hf (by simp)
        | some c =>
          rw [hfind] at hf
          have hfx : fits c x = true := by simpa using hf
          rw [Option.getD_some, Option.map_some']
          exact congrArg some (fits_infer_pres v2 c x (h.sub k) hfx)
      · rw [stepM, IMap.find?_insertAt_ne k2 k _ (by exact hk)]
        exact hf
termination_by sizeOf msv
end

mutual
/-- Progress: after merging `v` in, the tree covers `v`. -/
theorem fits_infer_self (v : Json) : ∀ (t : InferredSchema) (h : Hints),
    fits (t.infer v h) v = true := by
  intro t h
  cases v with
  | null =>
    rw [InferredSchema.infer.eq_1]
    exact fits_setNullable_null t
  | bool b =>
    cases t <;> simp [InferredSchema.infer, fits, InferredSchema.nullableOf]
  | num n =>
    cases t with
    | unknown nb =>
      simp only [InferredSchema.infer, fits]
      exact classify_accepts h.default_num_type n
    | number nb k =>
      simp only [InferredSchema.infer, fits]
      exact le_accepts _ _ n (join_ub_r k _) (classify_accepts h.default_num_type n)
    | boolean nb => simp [InferredSchema.infer, fits, InferredSchema.nullableOf]
    | string nb => simp [InferredSchema.infer, fits, InferredSchema.nullableOf]
    | timestamp nb => simp [InferredSchema.infer, fits, InferredSchema.nullableOf]
    | enum nb vals => simp [InferredSchema.infer, fits, InferredSchema.nullableOf]
    | elements nb c => simp [InferredSchema.infer, fits, InferredSchema.nullableOf]
    | properties nb m req => simp [InferredSchema.infer, fits, InferredSchema.nullableOf]
    | values nb c => simp [InferredSchema.infer, fits, InferredSchema.nullableOf]
    | discriminator nb tag m => simp [InferredSchema.infer, fits, InferredSchema.nullableOf]
    | any nb => simp [InferredSchema.infer, fits, InferredSchema.nullableOf]
  | str s =>
    cases t with
    | unknown nb =>
      by_cases he : h.enum_hints.isActive = true
      · simp [InferredSchema.infer, he, fits]
      · by_cases hts : isTimestamp s = true
        · simp [InferredSchema.infer, he, hts, fits]
        · simp [InferredSchema.infer, he, hts, fits]
    | timestamp nb =>
      by_cases hts : isTimestamp s = true
      · simp [InferredSchema.infer, hts, fits]
      · simp [InferredSchema.infer, hts, fits]
    | enum nb vals =>
      simp only [InferredSchema.infer, fits, decide_eq_true_eq]
      exact (insort_mem s s vals).mpr (Or.inl rfl)
    | boolean nb => simp [InferredSchema.infer, fits, InferredSchema.nullableOf]
    | number nb k => simp [InferredSchema.infer, fits, InferredSchema.nullableOf]
    | string nb => simp [InferredSchema.infer, fits, InferredSchema.nullableOf]
    | elements nb c => simp [InferredSchema.infer, fits, InferredSchema.nullableOf]
    | properties nb m req => simp [InferredSchema.infer, fits, InferredSchema.nullableOf]
    | values nb c => simp [InferredSchema.infer, fits, InferredSchema.nullableOf]
    | discriminator nb tag m => simp [InferredSchema.infer, fits, InferredSchema.nullableOf]
    | any nb => simp [InferredSchema.infer, fits, InferredSchema.nullableOf]
  | arr xs =>
    cases t with
    | unknown nb =>
      simp only [InferredSchema.infer, fits]
      exact fits_elems_self xs unknownS h
    | elements nb c =>
      simp only [InferredSchema.infer, fits]
      exact fits_elems_self xs c h
    | boolean nb => simp [InferredSchema.infer, fits, InferredSchema.nullableOf]
    | number nb k => simp [InferredSchema.infer, fits, InferredSchema.nullableOf]
    | string nb => simp [InferredSchema.infer, fits, InferredSchema.nullableOf]
    | timestamp nb => simp [InferredSchema.infer, fits, InferredSchema.nullableOf]
    | enum nb vals => simp [InferredSchema.infer, fits, InferredSchema.nullableOf]
    | properties nb m req => simp [InferredSchema.infer, fits, InferredSchema.nullableOf]
    | values nb c => simp [InferredSchema.infer, fits, InferredSchema.nullableOf]
    | discriminator nb tag m => simp [InferredSchema.infer, fits, InferredSchema.nullableOf]
    | any nb => simp [InferredSchema.infer, fits, InferredSchema.nullableOf]
  | obj msv =>
    cases t with
    | unknown nb =>
      cases hpk : h.discriminator_hints.peekTag with
      | some tag =>
        cases hfs : JsonO.findStr? tag msv with
        | some d =>
          rw [infer_unknown_obj_disc_some nb tag msv h d hpk hfs]
          simp only [fits]
          rw [hfs]
          show fitsVariantFind
              (IMap.nil.insertAt d (vstep h tag msv (freshVariant tag msv)))
              d tag msv = true
          rw [fitsVariantFind_eq, IMap.find?_insertAt_self]
          show vfits (vstep h tag msv (freshVariant tag msv)) tag msv = true
          simp only [freshVariant, vstep, vfits, Bool.and_eq_true]
          refine ⟨filter_all_self _ _, fits_members_self msv (some tag) .nil h⟩
        | none =>
          rw [infer_unknown_obj_disc_none nb tag msv h hpk hfs]
          simp [fits]
      | none =>
        by_cases hva : h.values_hints.isActive = true
        · have hred : (InferredSchema.unknown nb).infer (.obj msv) h
              = .values nb (inferValuesFold unknownS msv h) := by
            simp [InferredSchema.infer, hpk, hva]
          rw [hred]
          simp only [fits]
          exact fits_vals_self msv unknownS h
        · have hred : (InferredSchema.unknown nb).infer (.obj msv) h
              = .properties nb (inferMembers none IMap.nil msv h)
                  (sortedKeysExcept none msv) := by
            simp [InferredSchema.infer, hpk, hva]
          rw [hred]
          simp only [fits, Bool.and_eq_true]
          refine ⟨?_, fits_members_self msv none .nil h⟩
          rw [List.all_eq_true]
          intro a ha
          exact ((sortedKeysExcept_mem none a msv).mp ha).1
    | properties nb m req =>
      simp only [InferredSchema.infer, fits, Bool.and_eq_true]
      exact ⟨filter_all_self _ req, fits_members_self msv none m h⟩
    | values nb c =>
      simp only [InferredSchema.infer, fits]
      exact fits_vals_self msv c h
    | discriminator nb tag m =>
      cases hfs : JsonO.findStr? tag msv with
      | some d =>
        rw [infer_disc_obj_some nb tag m msv h d hfs]
        simp only [fits]
        rw [hfs]
        show fitsVariantFind
            (m.insertAt d (vstep h tag msv ((m.find? d).getD (freshVariant tag msv))))
            d tag msv = true
        rw [fitsVariantFind_eq, IMap.find?_insertAt_self]
        show vfits (vstep h tag msv ((m.find? d).getD (freshVariant tag msv))) tag msv
          = true
        cases hsub : (m.find? d).getD (freshVariant tag msv) with
        | properties nb2 m2 req2 =>
          simp only [vstep, vfits, Bool.and_eq_true]
          exact ⟨filter_all_self _ req2, fits_members_self msv (some tag) m2 h⟩
        | unknown nb2 => simp [vstep, vfits, InferredSchema.nullableOf]
        | boolean nb2 => simp [vstep, vfits, InferredSchema.nullableOf]
        | number nb2 k2 => simp [vstep, vfits, InferredSchema.nullableOf]
        | string nb2 => simp [vstep, vfits, InferredSchema.nullableOf]
        | timestamp nb2 => simp [vstep, vfits, InferredSchema.nullableOf]
        | enum nb2 vals2 => simp [vstep, vfits, InferredSchema.nullableOf]
        | elements nb2 c2 => simp [vstep, vfits, InferredSchema.nullableOf]
        | values nb2 c2 => simp [vstep, vfits, InferredSchema.nullableOf]
        | discriminator nb2 t2 m2 => simp [vstep, vfits, InferredSchema.nullableOf]
        | any nb2 => simp [vstep, vfits, InferredSchema.nullableOf]
      | none =>
        rw [infer_disc_obj_none nb tag m msv h hfs]
        simp [fits]
    | boolean nb => simp [InferredSchema.infer, fits, InferredSchema.nullableOf]
    | number nb k => simp [InferredSchema.infer, fits, InferredSchema.nullableOf]
    | string nb => simp [InferredSchema.infer, fits, InferredSchema.nullableOf]
    | timestamp nb => simp [InferredSchema.infer, fits, InferredSchema.nullableOf]
    | enum nb vals => simp [InferredSchema.infer, fits, InferredSchema.nullableOf]
    | elements nb c => simp [InferredSchema.infer, fits, InferredSchema.nullableOf]
    | any nb => simp [InferredSchema.infer, fits, InferredSchema.nullableOf]
termination_by sizeOf v

theorem fits_elems_self (xs : JsonL) : ∀ (c : InferredSchema) (h : Hints),
    fitsAll (inferElems c xs h) xs = true := by
  intro c h
  cases xs with
  | nil => simp [fitsAll]
  | cons x tl =>
    simp only [inferElems, fitsAll, Bool.and_eq_true]
    constructor
    · exact fits_elems_pres tl (c.infer x h) h x (fits_infer_self x c h)
    · exact fits_elems_self tl (c.infer x h) h
termination_by sizeOf xs

theorem fits_vals_self (ms : JsonO) : ∀ (c : InferredSchema) (h : Hints),
    fitsVals (inferValuesFold c ms h) ms = true := by
  intro c h
  cases ms with
  | nil => simp [fitsVals]
  | cons k x tl =>
    simp only [inferValuesFold, fitsVals, Bool.and_eq_true]
    constructor
    · exact fits_vals_pres tl (c.infer x h) h x (fits_infer_self x c h)
    · exact fits_vals_self tl (c.infer x h) h
termination_by sizeOf ms

theorem fits_members_self (msv : JsonO) : ∀ (skip : Option String) (m : IMap)
    (h : Hints), fitsMembers (inferMembers skip m msv h) skip msv = true := by
  intro skip m h
  cases msv with
  | nil => simp [fitsMembers]
  | cons k x tl =>
    rw [inferMembers_cons]
    by_cases hskip : skip = some k
    · rw [if_pos hskip]
      simp only [fitsMembers, Bool.and_eq_true]
      exact ⟨by rw [if_pos hskip], fits_members_self tl skip m h⟩
    · rw [if_neg hskip]
      simp only [fitsMembers, Bool.and_eq_true]
      refine ⟨?_, fits_members_self tl skip (stepM h k x m) h⟩
      rw [if_neg hskip]
      have hstep : fitsIn (stepM h k x m) k x = some true := by
        rw [fitsIn_eq, stepM, IMap.find?_insertAt_self, Option.map_some']
        exact congrArg some (fits_infer_self x _ (h.sub k))
      rw [fits_members_pres tl skip (stepM h k x m) h k x hstep]
termination_by sizeOf msv
end

/-! ### Bridging: emitted-schema lookups against tree lookups -/

theorem nullableB_into (t : InferredSchema) :
    t.into_schema.nullableB = t.nullableOf := by
  cases t <;>
    simp [InferredSchema.into_schema, Schema.nullableB, InferredSchema.nullableOf]

theorem accepts_null (s : Schema) (hn : s.nullableB = true) :
    accepts s .null = true := by
  cases s <;> simp_all [accepts, Schema.nullableB]

theorem hasKey_iff_find (k : String) :
    ∀ ms : JsonO, ms.hasKey k = true ↔ ∃ x, ms.find? k = some x
  | .nil => by simp [JsonO.hasKey, JsonO.find?]
  | .cons k2 x2 tl => by
    by_cases hk : k = k2
    · simp [JsonO.hasKey, JsonO.find?, hk]
    · simp [JsonO.hasKey, JsonO.find?, hk, hasKey_iff_find k tl]

theorem fitsMembers_find (m : IMap) (ex : Option String) (k : String) (x : Json) :
    ∀ ms : JsonO, fitsMembers m ex ms = true → ms.find? k = some x →
      ex ≠ some k → fitsIn m k x = some true
  | .nil => by simp [JsonO.find?]
  | .cons k2 x2 tl => by
    intro hfm hfind hex
    simp only [fitsMembers, Bool.and_eq_true] at hfm
    by_cases hk : k = k2
    · subst hk
      have hx2 : x2 = x := by simpa [JsonO.find?] using hfind
      subst hx2
      have h1 := hfm.1
      rw [if_neg hex] at h1
      cases hin : fitsIn m k x2 with
      | none => rw [hin] at h1; exact absurd h1 (by simp)
      | some b =>
        rw [hin] at h1
        cases b with
        | false => exact absurd h1 (by simp)
        | true => rfl
    · simp only [JsonO.find?] at hfind
      rw [if_neg hk] at hfind
      exact fitsMembers_find m ex k x tl hfm.2 hfind hex

theorem find?_some_gt (k0 : String) : ∀ (m : IMap), m.keysGt k0 →
    ∀ k c, m.find? k = some c → k0 < k
  | .nil => by simp [IMap.find?]
  | .cons k2 c2 tl => by
    rintro ⟨h2, htl⟩ k c hfc
    by_cases hk : k = k2
    · subst hk
      exact h2
    · simp only [IMap.find?] at hfc
      rw [if_neg hk] at hfc
      exact find?_some_gt k0 tl htl k c hfc

/-- The body a discriminator variant's emitted schema is checked against
once its entry is found (the match arm of `acceptsVariantFind`). -/
def acceptsVariant (sch : Schema) (tag : String) (ms : JsonO) : Bool :=
  match sch with
  | .properties _ rm om =>
    acceptsReq rm (some tag) ms && acceptsMembers rm om (some tag) ms
  | .empty _ => true
  | _ => false

theorem acceptsVariantFind_eq (d tag : String) (ms : JsonO) :
    ∀ mp : SchemaMap, acceptsVariantFind mp d tag ms
      = match mp.find? d with
        | some sch => acceptsVariant sch tag ms
        | none => false
  | .nil => by simp [acceptsVariantFind, SchemaMap.find?]
  | .cons k sch tl => by
    by_cases hk : d = k
    · subst hk
      cases sch <;> simp [acceptsVariantFind, SchemaMap.find?, acceptsVariant]
    · cases sch <;>
        simp [acceptsVariantFind, SchemaMap.find?, hk,
          acceptsVariantFind_eq d tag ms tl]

theorem find?_emitMap (d : String) : ∀ m : IMap,
    (emitMap m).find? d = (m.find? d).map InferredSchema.into_schema
  | .nil => by simp [emitMap, IMap.find?, SchemaMap.find?]
  | .cons k c tl => by
    by_cases hk : d = k
    · simp [emitMap, IMap.find?, SchemaMap.find?, hk]
    · simp [emitMap, IMap.find?, SchemaMap.find?, hk, find?_emitMap d tl]

theorem acceptsIn_emitReq_mem (k : String) (x : Json) (req : List String)
    (hk : k ∈ req) : ∀ m : IMap,
    acceptsIn (emitReq m req) k x
      = (m.find? k).map (fun c => accepts c.into_schema x)
  | .nil => by simp [emitReq, acceptsIn, IMap.find?]
  | .cons k2 c tl => by
    by_cases hkk : k = k2
    · subst hkk
      simp only [emitReq]
      rw [if_pos hk]
      simp [acceptsIn, IMap.find?]
    · simp only [emitReq]
      by_cases hm : k2 ∈ req
      · rw [if_pos hm]
        simp [acceptsIn, IMap.find?, hkk, acceptsIn_emitReq_mem k x req hk tl]
      · rw [if_neg hm]
        simp [IMap.find?, hkk, acceptsIn_emitReq_mem k x req hk tl]

theorem acceptsIn_emitReq_not (k : String) (x : Json) (req : List String)
    (hk : k ∉ req) : ∀ m : IMap, acceptsIn (emitReq m req) k x = none
  | .nil => by simp [emitReq, acceptsIn]
  | .cons k2 c tl => by
    simp only [emitReq]
    by_cases hm : k2 ∈ req
    · rw [if_pos hm]
      have hkk : ¬(k = k2) := fun he => hk (he ▸ hm)
      simp [acceptsIn, hkk, acceptsIn_emitReq_not k x req hk tl]
    · rw [if_neg hm]
      exact acceptsIn_emitReq_not k x req hk tl

theorem acceptsIn_emitOpt_mem (k : String) (x : Json) (req : List String)
    (hk : k ∉ req) : ∀ m : IMap,
    acceptsIn (emitOpt m req) k x
      = (m.find? k).map (fun c => accepts c.into_schema x)
  | .nil => by simp [emitOpt, acceptsIn, IMap.find?]
  | .cons k2 c tl => by
    by_cases hkk : k = k2
    · subst hkk
      simp only [emitOpt]
      rw [if_neg hk]
      simp [acceptsIn, IMap.find?]
    · simp only [emitOpt]
      by_cases hm : k2 ∈ req
      · rw [if_pos hm]
        simp [IMap.find?, hkk, acceptsIn_emitOpt_mem k x req hk tl]
      · rw [if_neg hm]
        simp [acceptsIn, IMap.find?, hkk, acceptsIn_emitOpt_mem k x req hk tl]

theorem acceptsAll_of (c : InferredSchema)
    (hp : ∀ x, fits c x = true → accepts c.into_schema x = true) :
    ∀ xs : JsonL, fitsAll c xs = true → acceptsAll c.into_schema xs = true
  | .nil => by simp [fitsAll, acceptsAll]
  | .cons x tl => by
    intro hf
    simp only [fitsAll, Bool.and_eq_true] at hf
    simp only [acceptsAll, Bool.and_eq_true]
    exact ⟨hp x hf.1, acceptsAll_of c hp tl hf.2⟩

theorem acceptsVals_of (c : InferredSchema)
    (hp : ∀ x, fits c x = true → accepts c.into_schema x = true) :
    ∀ ms : JsonO, fitsVals c ms = true → acceptsVals c.into_schema ms = true
  | .nil => by simp [fitsVals, acceptsVals]
  | .cons k x tl => by
    intro hf
    simp only [fitsVals, Bool.and_eq_true] at hf
    simp only [acceptsVals, Bool.and_eq_true]
    exact ⟨hp x hf.1, acceptsVals_of c hp tl hf.2⟩

theorem adq_members (m : IMap) (req : List String) (ex : Option String)
    (hmap : ∀ k c, m.find? k = some c → ∀ x, fits c x = true →
      accepts c.into_schema x = true) :
    ∀ ms : JsonO, fitsMembers m ex ms = true →
      acceptsMembers (emitReq m req) (emitOpt m req) ex ms = true
  | .nil => by simp [acceptsMembers]
  | .cons k x tl => by
    intro hfm
    simp only [fitsMembers, Bool.and_eq_true] at hfm
    simp only [acceptsMembers, Bool.and_eq_true]
    refine ⟨?_, adq_members m req ex hmap tl hfm.2⟩
    by_cases hex : ex = some k
    · rw [if_pos hex]
    · rw [if_neg hex]
      have h1 := hfm.1
      rw [if_neg hex] at h1
      have hfi : fitsIn m k x = some true := by
        cases hin : fitsIn m k x with
        | none => rw [hin] at h1; exact absurd h1 (by simp)
        | some b =>
          rw [hin] at h1
          cases b with
          | false => exact absurd h1 (by simp)
          | true => rfl
      obtain ⟨c, hfc, hfx⟩ := (fitsIn_some_true m k x).mp hfi
      have hacc := hmap k c hfc x hfx
      by_cases hreq : k ∈ req
      · rw [acceptsIn_emitReq_mem k x req hreq m, hfc, Option.map_some']
        exact hacc
      · rw [acceptsIn_emitReq_not k x req hreq m,
          acceptsIn_emitOpt_mem k x req hreq m, hfc, Option.map_some']
        exact hacc

theorem adq_req (msx : JsonO) (ex : Option String) :
    ∀ (m : IMap) (req : List String),
      (∀ k c, m.find? k = some c → k ∈ req → ex ≠ some k →
        ∃ xk, msx.find? k = some xk ∧ accepts c.into_schema xk = true) →
      m.wfm → acceptsReq (emitReq m req) ex msx = true
  | .nil => by
    intro req _ _
    simp [emitReq, acceptsReq]
  | .cons k c tl => by
    intro req hgood hwfm
    rw [IMap.wfm] at hwfm
    obtain ⟨hcwf, hgt, htl⟩ := hwfm
    have htail : acceptsReq (emitReq tl req) ex msx = true := by
      refine adq_req msx ex tl req ?_ htl
      intro k2 c2 hfind2 hk2 hex2
      refine hgood k2 c2 ?_ hk2 hex2
      have hlt : k < k2 := find?_some_gt k tl hgt k2 c2 hfind2
      simp only [IMap.find?]
      rw [if_neg (fun he => absurd (he ▸ hlt) (lt_irrefl _))]
      exact hfind2
    simp only [emitReq]
    by_cases hreq : k ∈ req
    · rw [if_pos hreq]
      simp only [acceptsReq, Bool.and_eq_true]
      refine ⟨?_, htail⟩
      by_cases hex : ex = some k
      · rw [if_pos hex]
      · rw [if_neg hex]
        obtain ⟨xk, hfx, haccx⟩ := hgood k c (by simp [IMap.find?]) hreq hex
        rw [hfx]
        exact haccx
    · rw [if_neg hreq]
      exact htail

theorem acceptsVariantFind_emit (d tag : String) (ms : JsonO) (m : IMap)
    (sub : InferredSchema) (hfind : m.find? d = some sub)
    (hacc : acceptsVariant sub.into_schema tag ms = true) :
    acceptsVariantFind (emitMap m) d tag ms = true := by
  rw [acceptsVariantFind_eq, find?_emitMap, hfind, Option.map_some']
  exact hacc

mutual
/-- Adequacy: on a well-formed tree, coverage implies acceptance by the
emitted schema. -/
theorem fits_accepts (t : InferredSchema) : t.wf → ∀ x, fits t x = true →
    accepts t.into_schema x = true := by
  intro hwf x hf
  by_cases hx : x = Json.null
  · subst hx
    rw [fits_null] at hf
    refine accepts_null t.into_schema ?_
    rw [nullableB_into]
    exact hf
  · cases t with
    | unknown nb => simp [InferredSchema.into_schema, accepts]
    | any nb => simp [InferredSchema.into_schema, accepts]
    | boolean nb =>
      cases x <;> simp_all [fits, InferredSchema.into_schema, accepts]
    | number nb k =>
      cases x <;> simp_all [fits, InferredSchema.into_schema, accepts]
    | string nb =>
      cases x <;> simp_all [fits, InferredSchema.into_schema, accepts]
    | timestamp nb =>
      cases x <;> simp_all [fits, InferredSchema.into_schema, accepts]
    | enum nb vals =>
      cases x <;> simp_all [fits, InferredSchema.into_schema, accepts]
    | elements nb c =>
      rw [InferredSchema.wf] at hwf
      cases x with
      | arr xs =>
        simp only [fits] at hf
        simp only [InferredSchema.into_schema, accepts]
        exact acceptsAll_of c (fits_accepts c hwf) xs hf
      | null => exact absurd rfl hx
      | bool b => simp [fits] at hf
      | num n => simp [fits] at hf
      | str s => simp [fits] at hf
      | obj ms => simp [fits] at hf
    | values nb c =>
      rw [InferredSchema.wf] at hwf
      cases x with
      | obj ms =>
        simp only [fits] at hf
        simp only [InferredSchema.into_schema, accepts]
        exact acceptsVals_of c (fits_accepts c hwf) ms hf
      | null => exact absurd rfl hx
      | bool b => simp [fits] at hf
      | num n => simp [fits] at hf
      | str s => simp [fits] at hf
      | arr xs => simp [fits] at hf
    | properties nb m req =>
      rw [InferredSchema.wf] at hwf
      obtain ⟨hm, hreq⟩ := hwf
      cases x with
      | obj ms =>
        simp only [fits, Bool.and_eq_true] at hf
        obtain ⟨hall, hfm⟩ := hf
        simp only [InferredSchema.into_schema, accepts, Bool.and_eq_true]
        have hmap : ∀ k c, m.find? k = some c → ∀ x2, fits c x2 = true →
            accepts c.into_schema x2 = true :=
          fun k c hfc => (fits_accepts_map m hm k c hfc).1
        constructor
        · refine adq_req ms none m req ?_ hm
          intro k c hfc hk _
          have hhk : ms.hasKey k = true := by
            rw [List.all_eq_true] at hall
            exact hall k hk
          obtain ⟨xk, hxk⟩ := (hasKey_iff_find k ms).mp hhk
          have hfi := fitsMembers_find m none k xk ms hfm hxk (by simp)
          obtain ⟨c2, hc2, hfx2⟩ := (fitsIn_some_true m k xk).mp hfi
          rw [hfc] at hc2
          have hcc : c = c2 := Option.some.inj hc2
          subst hcc
          exact ⟨xk, hxk, hmap k c hfc xk hfx2⟩
        · exact adq_members m req none hmap ms hfm
      | null => exact absurd rfl hx
      | bool b => simp [fits] at hf
      | num n => simp [fits] at hf
      | str s => simp [fits] at hf
      | arr xs => simp [fits] at hf
    | discriminator nb tag m =>
      rw [InferredSchema.wf] at hwf
      cases x with
      | obj ms =>
        simp only [fits] at hf
        cases hfs : JsonO.findStr? tag ms with
        | none => rw [hfs] at hf; exact absurd hf (by simp)
        | some d =>
          rw [hfs] at hf
          have hf2 : fitsVariantFind m d tag ms = true := hf
          rw [fitsVariantFind_eq] at hf2
          cases hfd : m.find? d with
          | none => rw [hfd] at hf2; exact absurd hf2 (by simp)
          | some sub =>
            rw [hfd] at hf2
            have hv : vfits sub tag ms = true := hf2
            simp only [InferredSchema.into_schema, accepts]
            rw [hfs]
            show acceptsVariantFind (emitMap m) d tag ms = true
            exact acceptsVariantFind_emit d tag ms m sub hfd
              ((fits_accepts_map m hwf d sub hfd).2 tag ms hv)
      | null => exact absurd rfl hx
      | bool b => simp [fits] at hf
      | num n => simp [fits] at hf
      | str s => simp [fits] at hf
      | arr xs => simp [fits] at hf
termination_by sizeOf t

theorem fits_accepts_map (m : IMap) : m.wfm →
    ∀ k c, m.find? k = some c →
      (∀ x, fits c x = true → accepts c.into_schema x = true) ∧
      (∀ tag ms, vfits c tag ms = true →
        acceptsVariant c.into_schema tag ms = true) := by
  intro hm k c hfc
  cases m with
  | nil => simp [IMap.find?] at hfc
  | cons k2 c2 tl =>
    rw [IMap.wfm] at hm
    obtain ⟨hc2, hgt, htl⟩ := hm
    by_cases hk : k = k2
    · subst hk
      have hcc : c2 = c := by simpa [IMap.find?] using hfc
      subst hcc
      exact ⟨fits_accepts c2 hc2, fits_accepts_variant c2 hc2⟩
    · simp only [IMap.find?] at hfc
      rw [if_neg hk] at hfc
      exact fits_accepts_map tl htl k c hfc
termination_by sizeOf m

theorem fits_accepts_variant (sub : InferredSchema) : sub.wf →
    ∀ (tag : String) (ms : JsonO), vfits sub tag ms = true →
      acceptsVariant sub.into_schema tag ms = true := by
  intro hwf tag ms hv
  cases sub with
  | properties nb2 m2 req2 =>
    rw [InferredSchema.wf] at hwf
    obtain ⟨hm2, hreq2⟩ := hwf
    simp only [vfits, Bool.and_eq_true] at hv
    obtain ⟨hall, hfm⟩ := hv
    simp only [InferredSchema.into_schema, acceptsVariant, Bool.and_eq_true]
    have hmap : ∀ k c, m2.find? k = some c → ∀ x2, fits c x2 = true →
        accepts c.into_schema x2 = true :=
      fun k c hfc => (fits_accepts_map m2 hm2 k c hfc).1
    constructor
    · refine adq_req ms (some tag) m2 req2 ?_ hm2
      intro k c hfc hk hex
      have hhk : ms.hasKey k = true := by
        rw [List.all_eq_true] at hall
        exact hall k hk
      obtain ⟨xk, hxk⟩ := (hasKey_iff_find k ms).mp hhk
      have hfi := fitsMembers_find m2 (some tag) k xk ms hfm hxk hex
      obtain ⟨c2, hc2, hfx2⟩ := (fitsIn_some_true m2 k xk).mp hfi
      rw [hfc] at hc2
      have hcc : c = c2 := Option.some.inj hc2
      subst hcc
      exact ⟨xk, hxk, hmap k c hfc xk hfx2⟩
    · exact adq_members m2 req2 (some tag) hmap ms hfm
  | any nb2 => simp [InferredSchema.into_schema, acceptsVariant]
  | unknown nb2 => simp [vfits] at hv
  | boolean nb2 => simp [vfits] at hv
  | number nb2 k2 => simp [vfits] at hv
  | string nb2 => simp [vfits] at hv
  | timestamp nb2 => simp [vfits] at hv
  | enum nb2 vals2 => simp [vfits] at hv
  | elements nb2 c2 => simp [vfits] at hv
  | values nb2 c2 => simp [vfits] at hv
  | discriminator nb2 t2 m2 => simp [vfits] at hv
termination_by sizeOf sub
end

theorem fold_fits_pres (h : Hints) (x : Json) :
    ∀ (l : List Json) (t : InferredSchema), fits t x = true →
      fits (l.foldl (fun s v => s.infer v h) t) x = true
  | [] => fun _ hf => hf
  | v :: tl => fun t hf => by
    simp only [List.foldl_cons]
    exact fold_fits_pres h x tl (t.infer v h) (fits_infer_pres v t x h hf)

theorem fold_wf (h : Hints) : ∀ (l : List Json) (t : InferredSchema), t.wf →
    (l.foldl (fun s v => s.infer v h) t).wf
  | [] => fun _ ht => ht
  | v :: tl => fun t ht => by
    simp only [List.foldl_cons]
    exact fold_wf h tl (t.infer v h) (infer_wf v t h ht)

theorem fold_fits_mem (h : Hints) (x : Json) :
    ∀ (l : List Json) (t : InferredSchema), x ∈ l →
      fits (l.foldl (fun s v => s.infer v h) t) x = true
  | [] => fun _ hx => absurd hx (List.not_mem_nil x)
  | v :: tl => fun t hx => by
    simp only [List.foldl_cons]
    rcases List.mem_cons.mp hx with rfl | hx2
    · exact fold_fits_pres h x tl (t.infer x h) (fits_infer_self x t h)
    · exact fold_fits_mem h x tl (t.infer v h) hx2

/-- C1: soundness of inference — for every sequence of JSON values folded
into a fresh `Inferrer` via `infer` (each prefix of a longer session being
such a sequence), the schema emitted by `into_schema` from the resulting
tree accepts, per RFC 8927 validation semantics, every value of the
sequence. -/
theorem c1_soundness (h : Hints) (l : List Json) (v : Json) (hv : v ∈ l) :
    accepts ((l.foldl Inferrer.infer (Inferrer.new h)).into_schema) v = true := by
  have hinf : (l.foldl Inferrer.infer (Inferrer.new h)).into_schema
      = (l.foldl (fun (s : InferredSchema) (x : Json) => s.infer x h)
          (InferredSchema.unknown false)).into_schema := by
    rw [show (l.foldl Inferrer.infer (Inferrer.new h)).into_schema
        = (l.foldl Inferrer.infer (Inferrer.new h)).inference.into_schema from rfl,
      foldl_inferrer l (Inferrer.new h)]
    rfl
  rw [hinf]
  have hwf0 : (InferredSchema.unknown false).wf := by
    rw [InferredSchema.wf]
    trivial
  exact fits_accepts _ (fold_wf h l _ hwf0) v (fold_fits_mem h v l _ hv)

/-- Witness for C1: the doctest session's second example is accepted by the
schema emitted after folding both examples in. -/
theorem c1_soundness_witness :
    (Json.obj (.cons "foo" (.bool false)
        (.cons "bar" .null (.cons "baz" (.num (.int 5)) .nil))))
      ∈ [Json.obj (.cons "foo" (.bool true) (.cons "bar" (.str "xxx") .nil)),
         Json.obj (.cons "foo" (.bool false)
           (.cons "bar" .null (.cons "baz" (.num (.int 5)) .nil)))]
    ∧ accepts
        (([Json.obj (.cons "foo" (.bool true) (.cons "bar" (.str "xxx") .nil)),
           Json.obj (.cons "foo" (.bool false)
             (.cons "bar" .null (.cons "baz" (.num (.int 5)) .nil)))].foldl
          Inferrer.infer (Inferrer.new hintsUint8)).into_schema)
        (Json.obj (.cons "foo" (.bool false)
          (.cons "bar" .null (.cons "baz" (.num (.int 5)) .nil)))) = true :=
  ⟨List.mem_cons_of_mem _ (List.mem_cons_self _ _),
    c1_soundness hintsUint8 _ _
      (List.mem_cons_of_mem _ (List.mem_cons_self _ _))⟩

end JtdInfer
